import Mathlib

/-!
Verification of the stepwise CART decision-tree core of the repository
(`src/utils/decisionTree.ts`): Gini impurity, majority labels, best-split
search, the breadth-first stepwise tree builder with its event protocol,
and the tree-walking classifier.

Shallow embedding conventions:
* JS numbers are modelled as `ℚ` (all arithmetic in the claims at issue is
  exact in both models).
* `samples[i].features[fi]` out-of-range access yields `undefined` in JS;
  it is modelled as `Option ℚ` (`none` = `undefined`).  The JS comparisons
  `undefined <= t` and `undefined > t` are both false, which `jsLe`/`jsGt`
  mirror.  `Array.prototype.sort` moves `undefined` elements to the end of
  the array without consulting the comparator (ECMA SortCompare), which
  `jsSortLe` mirrors; the midpoint of a pair involving `undefined` is `NaN`
  in JS, modelled as `none`, and a `NaN` threshold makes both partitions
  empty so the candidate is skipped.
* The builder generator is modelled two ways: `processQueue` (fuel-based
  loop threading the id counter through one build, producing the event list
  and the finished trees for each queue entry) for single-build claims, and
  `genNext` (one resumption step of a generator, with the module-level
  `NODE_ID` counter passed in and out explicitly) for claims about
  interleaved builds sharing the counter.
-/

attribute [local semireducible] Rat.add Rat.mul Rat.inv Rat.sub

/-- A labelled sample: `{features: number[]; label: string}`. -/
structure Sample where
  features : List ℚ
  label : String
deriving DecidableEq, Repr

/-- JS `v <= t` where `v` may be `undefined` (`undefined <= t` is false). -/
def jsLe (v : Option ℚ) (t : ℚ) : Bool :=
  match v with
  | none => false
  | some x => decide (x ≤ t)

/-- JS `v > t` where `v` may be `undefined` (`undefined > t` is false). -/
def jsGt (v : Option ℚ) (t : ℚ) : Bool :=
  match v with
  | none => false
  | some x => decide (t < x)

/-- The labels of `samples` in order of first occurrence: the iteration
order of the JS object `counts` built by insertion in sample order. -/
def uniqueLabels (samples : List Sample) : List String :=
  samples.foldl (fun acc s => if s.label ∈ acc then acc else acc ++ [s.label]) []

/-- Number of samples carrying label `k` (`counts[k]`). -/
def countLabel (samples : List Sample) (k : String) : ℕ :=
  (samples.filter (fun s => s.label = k)).length

/-- Gini impurity: `1 - Σ p_k²` over the label frequencies, exactly as the
source accumulates it (`score -= p * p` over the count table). -/
def gini (samples : List Sample) : ℚ :=
  let n : ℚ := samples.length
  (uniqueLabels samples).foldl
    (fun score k => score - (countLabel samples k / n) * (countLabel samples k / n)) 1

/-- Majority label: scans the count table in insertion order, keeping the
first label whose count strictly exceeds the best so far (initially
`best = ''`, `bestCount = -1`). -/
def majorityLabel (samples : List Sample) : String :=
  ((uniqueLabels samples).foldl
    (fun acc k =>
      if ((countLabel samples k : ℤ) > acc.2) then (k, (countLabel samples k : ℤ)) else acc)
    ("", -1)).1

/-- Comparator order used by `values.sort((a, b) => a - b)` on possibly
missing values: `undefined` elements are moved to the end by JS sort
without calling the comparator, and defined values sort ascending. -/
def jsSortLe (a b : Option ℚ) : Bool :=
  match a, b with
  | some x, some y => decide (x ≤ y)
  | some _, none => true
  | none, some _ => false
  | none, none => true

/-- Insertion of one value into a list sorted by `jsSortLe`. -/
def insertValue (x : Option ℚ) : List (Option ℚ) → List (Option ℚ)
  | [] => [x]
  | y :: ys => if jsSortLe x y then x :: y :: ys else y :: insertValue x ys

/-- Ascending sort of the gathered feature values (`undefined` last). -/
def sortValues (l : List (Option ℚ)) : List (Option ℚ) :=
  l.foldr insertValue []

/-- Midpoint of two adjacent sorted values; `NaN` (here `none`) when either
is `undefined`. -/
def midValue : Option ℚ → Option ℚ → Option ℚ
  | some a, some b => some ((a + b) / 2)
  | _, _ => none

/-- Candidate thresholds for feature `fi`: midpoints between adjacent
sorted values `(values[i-1] + values[i]) / 2`. -/
def thresholdsFor (samples : List Sample) (fi : ℕ) : List (Option ℚ) :=
  let values := sortValues (samples.map (fun s => s.features.get? fi))
  (values.zip values.tail).map (fun p => midValue p.1 p.2)

/-- The record tracked by `findBestSplit`; `featureIndex = -1` is the
initial sentinel meaning no candidate has been adopted yet. -/
structure BestSplit where
  featureIndex : ℤ
  threshold : ℚ
  infoGain : ℚ
  impurityLeft : ℚ
  impurityRight : ℚ
deriving DecidableEq, Repr

/-- Left partition for feature `fi` and threshold `th`:
`samples.filter(s => s.features[fi] <= th)`. -/
def leftOf (samples : List Sample) (fi : ℕ) (th : ℚ) : List Sample :=
  samples.filter (fun s => jsLe (s.features.get? fi) th)

/-- Right partition: `samples.filter(s => s.features[fi] > th)`. -/
def rightOf (samples : List Sample) (fi : ℕ) (th : ℚ) : List Sample :=
  samples.filter (fun s => jsGt (s.features.get? fi) th)

/-- The candidate record built for a valid threshold: impurities of both
partitions, their weighted sum, and the information gain. -/
def candidateOf (samples : List Sample) (n baseImpurity : ℚ) (fi : ℕ) (th : ℚ) : BestSplit :=
  let left := leftOf samples fi th
  let right := rightOf samples fi th
  let impL := gini left
  let impR := gini right
  let weighted := ((left.length : ℚ) / n) * impL + ((right.length : ℚ) / n) * impR
  ⟨(fi : ℤ), th, baseImpurity - weighted, impL, impR⟩

/-- `if (infoGain > best.infoGain) best = candidate`. -/
def updateBest (best cand : BestSplit) : BestSplit :=
  if best.infoGain < cand.infoGain then cand else best

/-- Evaluation of one candidate threshold: skip when either partition is
empty (which subsumes the `NaN`-threshold case, where both comparisons are
false), otherwise adopt the candidate iff its gain strictly exceeds the
best so far. -/
def evalThreshold (samples : List Sample) (n baseImpurity : ℚ) (fi : ℕ)
    (best : BestSplit) (oth : Option ℚ) : BestSplit :=
  match oth with
  | none => best
  | some th =>
    if (leftOf samples fi th).length = 0 ∨ (rightOf samples fi th).length = 0 then best
    else updateBest best (candidateOf samples n baseImpurity fi th)

/-- Number of features scanned: `samples[0]?.features.length ?? 0`. -/
def nFeatures (samples : List Sample) : ℕ :=
  match samples with
  | [] => 0
  | s :: _ => s.features.length

/-- `findBestSplit`: scans all features, then all candidate thresholds per
feature, tracking the single best candidate; returns `none` iff the
sentinel was never replaced. -/
def findBestSplit (samples : List Sample) : Option BestSplit :=
  let baseImpurity := gini samples
  let n : ℚ := samples.length
  let best := (List.range (nFeatures samples)).foldl
    (fun best fi => (thresholdsFor samples fi).foldl (evalThreshold samples n baseImpurity fi) best)
    ⟨-1, 0, 0, 0, 0⟩
  if best.featureIndex = -1 then none else some best

/-- A node sitting in the builder's BFS queue: its id, sample partition and
depth are fixed at creation (`createNode`); prediction and impurity are
derived eagerly from the samples. -/
structure Pending where
  id : ℕ
  samples : List Sample
  depth : ℕ
deriving DecidableEq, Repr

/-- The eagerly computed per-node data a build event exposes at yield time
(`id`, `samples`, `depth`, `prediction`, `impurity`). -/
structure NodeData where
  id : ℕ
  samples : List Sample
  depth : ℕ
  prediction : String
  impurity : ℚ
deriving DecidableEq, Repr

/-- `createNode(samplesLocal, depth)` with a given id. -/
def mkNodeData (p : Pending) : NodeData :=
  ⟨p.id, p.samples, p.depth, majorityLabel p.samples, gini p.samples⟩

/-- A finished tree node.  The source uses one record with optional
children; a node is a leaf iff both children are explicitly `null`, which
the builder establishes for every node, so the finished tree is exactly a
binary tree with split data on internal nodes. -/
inductive TreeNode where
  | leaf (nd : NodeData)
  | split (nd : NodeData) (featureIndex : ℕ) (threshold : ℚ) (infoGain : ℚ)
      (left right : TreeNode)
deriving DecidableEq, Repr

/-- The node data stored at the root of a (sub)tree. -/
def TreeNode.data : TreeNode → NodeData
  | .leaf nd => nd
  | .split nd _ _ _ _ _ => nd

/-- Events yielded by the builder generator.  `node_created` is the event
tagged `'node_created'` in the source, yielded when a dequeued node is
finalized as a leaf; `split` carries the node, both fresh children, and the
chosen split parameters; `done` carries the completed root. -/
inductive BuildEvent where
  | node_created (node : NodeData)
  | split (node : NodeData) (featureIndex : ℕ) (threshold : ℚ) (infoGain : ℚ)
      (leftNode rightNode : NodeData)
  | done (root : TreeNode)
deriving DecidableEq, Repr

/-- The stopping rule of the builder:
`node.depth >= maxDepth || node.samples.length < minSamplesSplit || node.impurity === 0`. -/
def stopRule (maxDepth minSamplesSplit : ℤ) (p : Pending) : Prop :=
  maxDepth ≤ (p.depth : ℤ) ∨ (p.samples.length : ℤ) < minSamplesSplit ∨ gini p.samples = 0

instance (maxDepth minSamplesSplit : ℤ) (p : Pending) :
    Decidable (stopRule maxDepth minSamplesSplit p) := by
  unfold stopRule; infer_instance

/-- One build: the FIFO loop of `buildTreeStepwise`, threading the node-id
counter `nextId`.  Returns the yielded events (without the final `done`)
and, positionally for each entry of the input queue, the finished subtree
that the source's in-place mutation leaves behind for that entry.  `fuel`
bounds the number of iterations; `sufficientFuel` below always suffices
(the termination theorem for claim C8). -/
def processQueue (maxDepth minSamplesSplit : ℤ) :
    ℕ → List Pending → ℕ → List BuildEvent × List TreeNode
  | 0, _, _ => ([], [])
  | _ + 1, [], _ => ([], [])
  | fuel + 1, p :: rest, nextId =>
    let nd := mkNodeData p
    if stopRule maxDepth minSamplesSplit p then
      let r := processQueue maxDepth minSamplesSplit fuel rest nextId
      (.node_created nd :: r.1, .leaf nd :: r.2)
    else
      match findBestSplit p.samples with
      | none =>
        let r := processQueue maxDepth minSamplesSplit fuel rest nextId
        (.node_created nd :: r.1, .leaf nd :: r.2)
      | some best =>
        if best.infoGain ≤ 0 then
          let r := processQueue maxDepth minSamplesSplit fuel rest nextId
          (.node_created nd :: r.1, .leaf nd :: r.2)
        else
          let fi := best.featureIndex.toNat
          let leftP : Pending := ⟨nextId, leftOf p.samples fi best.threshold, p.depth + 1⟩
          let rightP : Pending := ⟨nextId + 1, rightOf p.samples fi best.threshold, p.depth + 1⟩
          let r := processQueue maxDepth minSamplesSplit fuel (rest ++ [leftP, rightP]) (nextId + 2)
          let leftT := r.2.getD rest.length (.leaf (mkNodeData leftP))
          let rightT := r.2.getD (rest.length + 1) (.leaf (mkNodeData rightP))
          (.split nd fi best.threshold best.infoGain (mkNodeData leftP) (mkNodeData rightP) :: r.1,
            .split nd fi best.threshold best.infoGain leftT rightT :: r.2.take rest.length)

/-- An upper bound on the number of loop iterations of one build: a tree
whose root partition has `n` samples has at most `max (2n - 1) 1` nodes,
since every split produces two strictly smaller nonempty partitions. -/
def nodeBound (n : ℕ) : ℕ :=
  if n = 0 then 1 else 2 * n - 1

/-- Iteration bound for a whole queue. -/
def queueMeasure (q : List Pending) : ℕ :=
  (q.map (fun p => nodeBound p.samples.length)).sum

/-- Fuel that always suffices for one build (proved in the termination
development below). -/
def sufficientFuel (samples : List Sample) : ℕ :=
  2 * samples.length + 1

/-- The root pending entry: `createNode(samples, 0)` right after
`resetIds()`, so it takes id 1 and the counter moves to 2. -/
def rootPending (samples : List Sample) : Pending :=
  ⟨1, samples, 0⟩

/-- One build with explicit fuel: the yielded event sequence, ending with
the final `done` event that carries the completed root. -/
def buildTreeStepwiseFuel (fuel : ℕ) (samples : List Sample)
    (maxDepth minSamplesSplit : ℤ) : List BuildEvent :=
  let r := processQueue maxDepth minSamplesSplit fuel [rootPending samples] 2
  r.1 ++ [.done (r.2.getD 0 (.leaf (mkNodeData (rootPending samples))))]

/-- `buildTreeStepwise(samples, maxDepth = 3, minSamplesSplit = 2)`: the
full event sequence of one uninterleaved build, drained to completion. -/
def buildTreeStepwise (samples : List Sample)
    (maxDepth minSamplesSplit : ℤ) : List BuildEvent :=
  buildTreeStepwiseFuel (sufficientFuel samples) samples maxDepth minSamplesSplit

/-- The completed root carried by the final `done` event of one build. -/
def doneRoot (samples : List Sample) (maxDepth minSamplesSplit : ℤ) : TreeNode :=
  (processQueue maxDepth minSamplesSplit (sufficientFuel samples)
    [rootPending samples] 2).2.getD 0 (.leaf (mkNodeData (rootPending samples)))

/-- The classifier walk `classify(root, point)` on a built tree: at each
internal node, `point[featureIndex] <= threshold` routes left (missing
feature values compare false, routing right), and the reached node's
prediction is returned. -/
def classifyGo : TreeNode → List ℚ → String
  | .leaf nd, _ => nd.prediction
  | .split _ fi th _ l r, point =>
    if jsLe (point.get? fi) th then classifyGo l point else classifyGo r point

/-- `classify(root, point)`: `null` when no tree has been built. -/
def classify (root : Option TreeNode) (point : List ℚ) : Option String :=
  match root with
  | none => none
  | some t => some (classifyGo t point)

/-- Events as seen by a step-driven caller of the generator.  `done` is the
final event (its root payload is the subject of the `processQueue` model);
`exhausted` models calling `next()` after the generator has finished. -/
inductive StepEvent where
  | node_created (node : NodeData)
  | split (node : NodeData) (featureIndex : ℕ) (threshold : ℚ) (infoGain : ℚ)
      (leftNode rightNode : NodeData)
  | done
  | exhausted
deriving DecidableEq, Repr

/-- Phase of a generator object: the body of a JS generator does not run
until the first `next()`, so `resetIds()` happens on the first step. -/
inductive GenPhase where
  | notStarted
  | running
  | finished
deriving DecidableEq, Repr

/-- A suspended `buildTreeStepwise(...)` generator object.  The queue is
per-generator state; the node-id counter `NODE_ID` is module-level shared
state and is therefore passed through `genNext` explicitly. -/
structure Gen where
  samples : List Sample
  maxDepth : ℤ
  minSamplesSplit : ℤ
  phase : GenPhase
  queue : List Pending
deriving DecidableEq, Repr

/-- A fresh, not-yet-stepped generator object. -/
def mkGen (samples : List Sample) (maxDepth minSamplesSplit : ℤ) : Gen :=
  ⟨samples, maxDepth, minSamplesSplit, .notStarted, []⟩

/-- One iteration of the builder loop: dequeue one node, finalize it as a
leaf or split it, and yield the corresponding event.  Returns the event,
the updated shared counter, the updated queue, and whether the loop ended
(empty queue, `done` yielded). -/
def stepQueue (maxDepth minSamplesSplit : ℤ) (counter : ℕ) :
    List Pending → StepEvent × ℕ × List Pending × Bool
  | [] => (.done, counter, [], true)
  | p :: rest =>
    let nd := mkNodeData p
    if stopRule maxDepth minSamplesSplit p then
      (.node_created nd, counter, rest, false)
    else
      match findBestSplit p.samples with
      | none => (.node_created nd, counter, rest, false)
      | some best =>
        if best.infoGain ≤ 0 then (.node_created nd, counter, rest, false)
        else
          let fi := best.featureIndex.toNat
          let leftP : Pending := ⟨counter, leftOf p.samples fi best.threshold, p.depth + 1⟩
          let rightP : Pending := ⟨counter + 1, rightOf p.samples fi best.threshold, p.depth + 1⟩
          (.split nd fi best.threshold best.infoGain (mkNodeData leftP) (mkNodeData rightP),
            counter + 2, rest ++ [leftP, rightP], false)

/-- `next()` on a generator object: on the first step the body runs
`resetIds()` (the shared counter becomes 1), creates the root (id 1,
counter 2) and seeds the queue; every step then runs the loop until the
next yield.  The shared counter is read and written through the call. -/
def genNext (counter : ℕ) (g : Gen) : StepEvent × ℕ × Gen :=
  match g.phase with
  | .finished => (.exhausted, counter, g)
  | .notStarted =>
    let r := stepQueue g.maxDepth g.minSamplesSplit 2 [⟨1, g.samples, 0⟩]
    (r.1, r.2.1,
      { g with phase := if r.2.2.2 then .finished else .running, queue := r.2.2.1 })
  | .running =>
    let r := stepQueue g.maxDepth g.minSamplesSplit counter g.queue
    (r.1, r.2.1,
      { g with phase := if r.2.2.2 then .finished else .running, queue := r.2.2.1 })

/-- Drive one generator alone to completion (collecting through `done`). -/
def runGen : ℕ → ℕ → Gen → List StepEvent
  | 0, _, _ => []
  | fuel + 1, counter, g =>
    let r := genNext counter g
    match r.1 with
    | .exhausted => []
    | .done => [.done]
    | e => e :: runGen fuel r.2.1 r.2.2

/-- The candidate a threshold contributes if it is valid: `none` for a
`NaN` threshold or a threshold with an empty partition on either side. -/
def validCandidate (samples : List Sample) (n baseImpurity : ℚ) (fi : ℕ) :
    Option ℚ → Option BestSplit
  | none => none
  | some th =>
    if (leftOf samples fi th).length = 0 ∨ (rightOf samples fi th).length = 0 then none
    else some (candidateOf samples n baseImpurity fi th)

/-- The scan-ordered list of valid split candidates: for each feature in
index order, for each candidate threshold in midpoint order, the candidate
record, skipping thresholds with an empty partition on either side.  This
is the sequence of candidates `findBestSplit` actually evaluates. -/
def scanCandidates (samples : List Sample) : List BestSplit :=
  (List.range (nFeatures samples)).flatMap (fun fi =>
    (thresholdsFor samples fi).filterMap
      (validCandidate samples samples.length (gini samples) fi))

/-- Concrete scenario of the spec (§8, scenario 1): two "A" samples at 0, 1
and two "B" samples at 10, 11, one feature. -/
def dataC1 : List Sample :=
  [⟨[0], "A"⟩, ⟨[1], "A"⟩, ⟨[10], "B"⟩, ⟨[11], "B"⟩]

/-- A dataset whose two valid thresholds (0 and 1/2) both have information
gain exactly 0: every split preserves the 50/50 label mix. -/
def dataZeroGain : List Sample :=
  [⟨[0], "A"⟩, ⟨[0], "B"⟩, ⟨[1], "A"⟩, ⟨[1], "B"⟩]

/-- A dataset with inconsistent feature-vector lengths: the third sample
lacks feature 1, on which the best split is found. -/
def dataRagged : List Sample :=
  [⟨[0, 5], "A"⟩, ⟨[1, 6], "B"⟩, ⟨[2], "A"⟩]

/-- Dataset used for the interleaving scenario: its tree has three split
levels, so the build keeps allocating node ids after its first event. -/
def dataA : List Sample :=
  [⟨[0], "A"⟩, ⟨[1], "B"⟩, ⟨[10], "A"⟩, ⟨[11], "B"⟩]

/-- A one-sample build, used to reset the shared counter mid-build. -/
def dataB : List Sample := [⟨[0], "X"⟩]

/-- The information gain carried by a `split` event. -/
def eventInfoGain : BuildEvent → Option ℚ
  | .split _ _ _ g _ _ => some g
  | _ => none

/-- Whether a finished node is an internal (split) node. -/
def isSplitNode : TreeNode → Bool
  | .split _ _ _ _ _ _ => true
  | .leaf _ => false

/-- The concatenation of the two children's training partitions of an
internal node (empty for a leaf). -/
def childSamples : TreeNode → List Sample
  | .leaf _ => []
  | .split _ _ _ _ l r => l.data.samples ++ r.data.samples

/-- Ids of the child nodes freshly created by a `split` step event. -/
def splitChildIds : StepEvent → List ℕ
  | .split _ _ _ _ l r => [l.id, r.id]
  | _ => []

/-- The ids handed out during a stepped build whose event list is `evs`:
the root always takes id 1, and each split allocates its two children. -/
def createdIds (evs : List StepEvent) : List ℕ :=
  1 :: evs.flatMap splitChildIds

/-- Build A driven alone to completion. -/
def soloA : List StepEvent := runGen 20 1 (mkGen dataA 3 2)

/-- The first three events of build A when a second build (on `dataB`) is
started and stepped once between A's first and second steps, with the
module-level `NODE_ID` counter threaded through every step exactly as in
the source.  The second build's first step runs `resetIds()`. -/
def interleavedA : List StepEvent :=
  let a1 := genNext 1 (mkGen dataA 3 2)
  let b1 := genNext a1.2.1 (mkGen dataB 3 2)
  let a2 := genNext b1.2.1 a1.2.2
  let a3 := genNext a2.2.1 a2.2.2
  [a1.1, a2.1, a3.1]

/-- All subtrees of a finished tree (the tree itself included). -/
def subtrees : TreeNode → List TreeNode
  | .leaf nd => [.leaf nd]
  | .split nd fi th g l r => .split nd fi th g l r :: (subtrees l ++ subtrees r)

/-- The node data of every leaf of a finished tree. -/
def leavesOf : TreeNode → List NodeData
  | .leaf nd => [nd]
  | .split _ _ _ _ l r => leavesOf l ++ leavesOf r

/-- Number of nodes of a finished tree. -/
def treeSize : TreeNode → ℕ
  | .leaf _ => 1
  | .split _ _ _ _ l r => 1 + treeSize l + treeSize r

/-- Structural soundness of a finished subtree with respect to the builder:
every internal node records the split `findBestSplit` chose for its samples
(with strictly positive gain), sits strictly below `maxDepth`, and its
children carry exactly the two filter partitions at depth one lower. -/
def GoodTree (maxDepth : ℤ) : TreeNode → Prop
  | .leaf _ => True
  | .split nd fi th g l r =>
    (∃ b : BestSplit, findBestSplit nd.samples = some b ∧
      b.featureIndex.toNat = fi ∧ b.threshold = th ∧ b.infoGain = g ∧ 0 < g) ∧
    (nd.depth : ℤ) < maxDepth ∧
    l.data.samples = leftOf nd.samples fi th ∧
    r.data.samples = rightOf nd.samples fi th ∧
    l.data.depth = nd.depth + 1 ∧
    r.data.depth = nd.depth + 1 ∧
    GoodTree maxDepth l ∧ GoodTree maxDepth r

/-- All samples share feature-vector length `F` (a well-formed dataset). -/
def UniformFeatures (F : ℕ) (samples : List Sample) : Prop :=
  ∀ s ∈ samples, s.features.length = F

/-- Whether an event is the final `done` event. -/
def BuildEvent.isDone : BuildEvent → Bool
  | .done _ => true
  | _ => false

/-- The depth of the node an event announces (0 for `done`). -/
def eventDepth : BuildEvent → ℕ
  | .node_created nd => nd.depth
  | .split nd _ _ _ _ _ => nd.depth
  | .done _ => 0

/-- The id of the node an event announces (0 for `done`). -/
def eventId : BuildEvent → ℕ
  | .node_created nd => nd.id
  | .split nd _ _ _ _ _ => nd.id
  | .done _ => 0

/-- The queue entry a finished subtree answers for. -/
def pendingData (t : TreeNode) : Pending :=
  ⟨t.data.id, t.data.samples, t.data.depth⟩

/-- The subject node ids of the per-node events of one build, in yield
order (the final `done` event has no subject and is excluded). -/
def buildIds (samples : List Sample) (maxDepth minSamplesSplit : ℤ) : List ℕ :=
  (processQueue maxDepth minSamplesSplit (sufficientFuel samples)
    [rootPending samples] 2).1.map eventId

/-- The ids of the two children a `split` event creates (empty for other
events). -/
def eventChildIds : BuildEvent → List ℕ
  | .split _ _ _ _ l r => [l.id, r.id]
  | _ => []

/-- C1 (counterexample): on the spec's four-sample scenario the single root
split the builder emits carries information gain 1/2, not the claimed 1.0
(the Gini gain of the perfect separation is the base impurity 1/2 minus the
zero weighted child impurity). -/
theorem claimC1_counterexample :
    (buildTreeStepwise dataC1 3 2).head?.bind eventInfoGain = some (1 / 2) ∧
    ((1 : ℚ) / 2) ≠ 1 := by
  decide

/-- C1 (amended): on the four-sample scenario (`maxDepth = 3`,
`minSamplesSplit = 2`) the builder splits the root exactly once on feature
0 at threshold 5.5 with information gain 0.5, producing two pure leaf
children predicting "A" and "B", and yields exactly the events split(root),
leaf(left), leaf(right), done — the leaf events being the source's
`node_created` events. -/
theorem claimC1_events :
    buildTreeStepwise dataC1 3 2 =
      [.split ⟨1, dataC1, 0, "A", 1 / 2⟩ 0 (11 / 2) (1 / 2)
          ⟨2, [⟨[0], "A"⟩, ⟨[1], "A"⟩], 1, "A", 0⟩
          ⟨3, [⟨[10], "B"⟩, ⟨[11], "B"⟩], 1, "B", 0⟩,
        .node_created ⟨2, [⟨[0], "A"⟩, ⟨[1], "A"⟩], 1, "A", 0⟩,
        .node_created ⟨3, [⟨[10], "B"⟩, ⟨[11], "B"⟩], 1, "B", 0⟩,
        .done (.split ⟨1, dataC1, 0, "A", 1 / 2⟩ 0 (11 / 2) (1 / 2)
          (.leaf ⟨2, [⟨[0], "A"⟩, ⟨[1], "A"⟩], 1, "A", 0⟩)
          (.leaf ⟨3, [⟨[10], "B"⟩, ⟨[11], "B"⟩], 1, "B", 0⟩))] := by
  decide

/-- C2 (counterexample): on a dataset with inconsistent feature-vector
lengths (accepted by the builder, see C5) the completed root is an internal
node whose children's sample multisets do not union to the node's samples:
the sample lacking the split feature is dropped from both partitions, since
both `undefined <= threshold` and `undefined > threshold` are false. -/
theorem claimC2_counterexample :
    isSplitNode (doneRoot dataRagged 3 2) = true ∧
    ¬ (childSamples (doneRoot dataRagged 3 2)).Perm (doneRoot dataRagged 3 2).data.samples := by
  decide

/-- C4 (counterexample): a dataset whose feature produces two valid
thresholds (0 and 1/2, each with nonempty partitions) on which
`findBestSplit` nevertheless returns no candidate, because every valid
threshold has information gain 0 and the tracker only adopts strictly
positive improvements over its initial gain 0.  This falsifies "none iff
every feature produced zero valid thresholds". -/
theorem claimC4_counterexample :
    findBestSplit dataZeroGain = none ∧ scanCandidates dataZeroGain ≠ [] := by
  decide

/-- C5: the builder performs no precondition validation.  Called with zero
samples it does not reject: it emits a normal event sequence containing a
degenerate root leaf with prediction `''` and impurity 1 (and likewise
`maxDepth < 0` or ragged feature vectors are accepted, see
`claimC2_counterexample` for the latter). -/
theorem claimC5_no_rejection :
    buildTreeStepwise ([] : List Sample) 3 2 =
      [.node_created ⟨1, [], 0, "", 1⟩, .done (.leaf ⟨1, [], 0, "", 1⟩)] := by
  decide

/-- C6 (counterexample): with the module-level `NODE_ID` counter threaded
through generator steps exactly as in the source, starting and stepping a
second build between the first build's steps changes the first build's
event sequence (its third event allocates children ids 2 and 3 instead of
4 and 5, because the second build reset the shared counter), and the ids
allocated within the first build are no longer unique. -/
theorem claimC6_counterexample :
    interleavedA ≠ soloA.take 3 ∧ ¬ (createdIds interleavedA).Nodup := by
  decide

/-- C10 (counterexample): classifying with a feature vector shorter than
required by the root's feature index is not surfaced as an error: the walk
silently routes right at the missing feature and returns the ordinary
prediction of the right subtree's leaf. -/
theorem claimC10_counterexample :
    classify (some (doneRoot dataC1 3 2)) [] = some "B" := by
  decide

/-- C10 (amended): `classify` never faults on a feature vector shorter than
an internal node's feature index; instead of surfacing an error, the
comparison on the missing value is false and the walk continues into the
right subtree, returning its ordinary prediction. -/
theorem claimC10_missing_feature (nd : NodeData) (fi : ℕ) (th g : ℚ) (l r : TreeNode)
    (point : List ℚ) (h : point.length ≤ fi) :
    classifyGo (.split nd fi th g l r) point = classifyGo r point := by
  have hnone : point[fi]? = none := List.getElem?_eq_none h
  simp [classifyGo, jsLe, List.get?_eq_getElem?, hnone]

/-- Witness for `claimC10_missing_feature` at a concrete short vector. -/
theorem claimC10_missing_feature_witness :
    ([] : List ℚ).length ≤ 0 ∧
    classifyGo (.split ⟨1, [], 0, "", 1⟩ 0 0 0 (.leaf ⟨2, [], 1, "L", 0⟩)
      (.leaf ⟨3, [], 1, "R", 0⟩)) [] = classifyGo (.leaf ⟨3, [], 1, "R", 0⟩) [] :=
  ⟨Nat.le_refl 0,
    claimC10_missing_feature ⟨1, [], 0, "", 1⟩ 0 0 0 (.leaf ⟨2, [], 1, "L", 0⟩)
      (.leaf ⟨3, [], 1, "R", 0⟩) [] (Nat.le_refl 0)⟩

/-- A fold preserves any invariant its step preserves. -/
theorem foldl_invariant {α β : Type} {P : β → Prop} (f : β → α → β) (l : List α) (init : β)
    (h0 : P init) (hstep : ∀ b a, P b → P (f b a)) : P (l.foldl f init) := by
  induction l generalizing init with
  | nil => exact h0
  | cons a t ih => exact ih (f init a) (hstep init a h0)

/-- One threshold evaluation is the `updateBest` fold step on the valid
candidate the threshold contributes, if any. -/
theorem evalThreshold_eq (samples : List Sample) (n base : ℚ) (fi : ℕ)
    (best : BestSplit) (oth : Option ℚ) :
    evalThreshold samples n base fi best oth =
      match validCandidate samples n base fi oth with
      | none => best
      | some c => updateBest best c := by
  cases oth with
  | none => rfl
  | some th =>
    simp only [evalThreshold, validCandidate]
    by_cases h : (leftOf samples fi th).length = 0 ∨ (rightOf samples fi th).length = 0
    · rw [if_pos h, if_pos h]
    · rw [if_neg h, if_neg h]

/-- Folding the threshold evaluator over a threshold list is folding
`updateBest` over the valid candidates those thresholds contribute. -/
theorem foldl_evalThreshold (samples : List Sample) (n base : ℚ) (fi : ℕ)
    (l : List (Option ℚ)) (best : BestSplit) :
    l.foldl (evalThreshold samples n base fi) best =
      (l.filterMap (validCandidate samples n base fi)).foldl updateBest best := by
  induction l generalizing best with
  | nil => rfl
  | cons oth t ih =>
    rw [List.foldl_cons, evalThreshold_eq, List.filterMap_cons]
    cases h : validCandidate samples n base fi oth with
    | none => simp only [h]; exact ih best
    | some c => simp only [h, List.foldl_cons]; exact ih (updateBest best c)

/-- The feature-then-threshold nested fold is one `updateBest` fold over
the flattened scan-ordered candidate list. -/
theorem foldl_features (samples : List Sample) (n base : ℚ) (fis : List ℕ) (b : BestSplit) :
    fis.foldl
        (fun b fi => (thresholdsFor samples fi).foldl (evalThreshold samples n base fi) b) b =
      (fis.flatMap
        (fun fi => (thresholdsFor samples fi).filterMap (validCandidate samples n base fi))).foldl
        updateBest b := by
  induction fis generalizing b with
  | nil => rfl
  | cons fi t ih =>
    rw [List.foldl_cons, List.flatMap_cons, List.foldl_append, foldl_evalThreshold]
    exact ih _

/-- `findBestSplit` as a single fold over the scan-ordered candidates. -/
theorem findBestSplit_eq (samples : List Sample) :
    findBestSplit samples =
      (if ((scanCandidates samples).foldl updateBest ⟨-1, 0, 0, 0, 0⟩).featureIndex = -1
       then none
       else some ((scanCandidates samples).foldl updateBest ⟨-1, 0, 0, 0, 0⟩)) := by
  simp only [findBestSplit, scanCandidates]
  rw [foldl_features]

/-- First-max characterization of the `updateBest` fold: either no
candidate ever strictly improved on the accumulator and it is returned
unchanged, or the result is the first list element attaining the maximal
gain — every earlier element has strictly smaller gain and every later one
no larger gain. -/
theorem foldl_updateBest_char (l : List BestSplit) (b0 : BestSplit) :
    (l.foldl updateBest b0 = b0 ∧ ∀ c ∈ l, c.infoGain ≤ b0.infoGain) ∨
    (∃ pre post, l = pre ++ l.foldl updateBest b0 :: post ∧
      b0.infoGain < (l.foldl updateBest b0).infoGain ∧
      (∀ c ∈ pre, c.infoGain < (l.foldl updateBest b0).infoGain) ∧
      (∀ c ∈ post, c.infoGain ≤ (l.foldl updateBest b0).infoGain)) := by
  induction l generalizing b0 with
  | nil => exact Or.inl ⟨rfl, by simp⟩
  | cons a t ih =>
    rw [List.foldl_cons]
    by_cases h : b0.infoGain < a.infoGain
    · have hu : updateBest b0 a = a := by simp [updateBest, if_pos h]
      rw [hu]
      rcases ih a with ⟨heq, hall⟩ | ⟨pre, post, hsplit, hgt, hpre, hpost⟩
      · refine Or.inr ⟨[], t, ?_, ?_, by simp, ?_⟩
        · rw [heq]; rfl
        · rw [heq]; exact h
        · rw [heq]; exact hall
      · refine Or.inr ⟨a :: pre, post, ?_, lt_trans h hgt, ?_, hpost⟩
        · rw [List.cons_append, ← hsplit]
        · intro c hc
          rcases List.mem_cons.mp hc with rfl | hc
          · exact hgt
          · exact hpre c hc
    · have hu : updateBest b0 a = b0 := by simp [updateBest, if_neg h]
      rw [hu]
      rcases ih b0 with ⟨heq, hall⟩ | ⟨pre, post, hsplit, hgt, hpre, hpost⟩
      · refine Or.inl ⟨heq, ?_⟩
        intro c hc
        rcases List.mem_cons.mp hc with rfl | hc
        · exact not_lt.mp h
        · exact hall c hc
      · refine Or.inr ⟨a :: pre, post, ?_, hgt, ?_, hpost⟩
        · rw [List.cons_append, ← hsplit]
        · intro c hc
          rcases List.mem_cons.mp hc with rfl | hc
          · exact lt_of_le_of_lt (not_lt.mp h) hgt
          · exact hpre c hc

/-- Every scan candidate comes from a feature in range and a valid
threshold, and is the corresponding candidate record. -/
theorem scanCandidates_mem {samples : List Sample} {c : BestSplit}
    (hc : c ∈ scanCandidates samples) :
    ∃ fi th, fi < nFeatures samples ∧
      (leftOf samples fi th).length ≠ 0 ∧ (rightOf samples fi th).length ≠ 0 ∧
      c = candidateOf samples samples.length (gini samples) fi th := by
  unfold scanCandidates at hc
  rcases List.mem_flatMap.mp hc with ⟨fi, hfi, hmem⟩
  rcases List.mem_filterMap.mp hmem with ⟨oth, _, hvc⟩
  cases oth with
  | none => simp [validCandidate] at hvc
  | some th =>
    by_cases h : (leftOf samples fi th).length = 0 ∨ (rightOf samples fi th).length = 0
    · rw [validCandidate, if_pos h] at hvc
      cases hvc
    · rw [validCandidate, if_neg h] at hvc
      push_neg at h
      exact ⟨fi, th, List.mem_range.mp hfi, h.1, h.2, (Option.some_injective _ hvc).symm⟩

/-- Full characterization of `findBestSplit` against the scan-ordered
candidate list (the content of claim C4 as amended). -/
theorem findBestSplit_char (samples : List Sample) :
    (findBestSplit samples = none ↔ ∀ c ∈ scanCandidates samples, c.infoGain ≤ 0) ∧
    (∀ b, findBestSplit samples = some b →
      b ∈ scanCandidates samples ∧ 0 < b.infoGain ∧
      ∃ pre post, scanCandidates samples = pre ++ b :: post ∧
        (∀ c ∈ pre, c.infoGain < b.infoGain) ∧
        (∀ c ∈ post, c.infoGain ≤ b.infoGain)) := by
  have hchar := foldl_updateBest_char (scanCandidates samples) ⟨-1, 0, 0, 0, 0⟩
  rw [findBestSplit_eq]
  rcases hchar with ⟨heq, hall⟩ | ⟨pre, post, hsplit, hgt, hpre, hpost⟩
  · rw [heq]
    constructor
    · rw [if_pos rfl]
      exact iff_of_true rfl hall
    · intro b hb
      rw [if_pos rfl] at hb
      cases hb
  · have hrmem : (scanCandidates samples).foldl updateBest ⟨-1, 0, 0, 0, 0⟩ ∈
        scanCandidates samples := by
      nth_rewrite 1 [hsplit]
      exact List.mem_append_right _ (List.mem_cons_self _ _)
    rcases scanCandidates_mem hrmem with ⟨fi, th, _, _, _, hcand⟩
    have hne : ¬ ((scanCandidates samples).foldl updateBest
        ⟨-1, 0, 0, 0, 0⟩).featureIndex = -1 := by
      rw [hcand]
      intro hcontra
      simp only [candidateOf] at hcontra
      omega
    rw [if_neg hne]
    constructor
    · constructor
      · intro hcontra
        cases hcontra
      · intro hallc
        exact absurd hgt (not_lt.mpr (hallc _ hrmem))
    · intro b hb
      injection hb with hb
      subst hb
      exact ⟨hrmem, hgt, pre, post, hsplit, hpre, hpost⟩

/-- C4 (amended): `findBestSplit` returns no candidate iff every valid
threshold over every feature has information gain at most 0 (thresholds
with an empty partition on either side being skipped); otherwise it returns
the scan-wise first candidate attaining the strictly greatest gain: every
earlier candidate in features-then-thresholds order has strictly smaller
gain, every later one no larger gain. -/
theorem claimC4_characterization (samples : List Sample) :
    (findBestSplit samples = none ↔ ∀ c ∈ scanCandidates samples, c.infoGain ≤ 0) ∧
    (∀ b, findBestSplit samples = some b →
      b ∈ scanCandidates samples ∧ 0 < b.infoGain ∧
      ∃ pre post, scanCandidates samples = pre ++ b :: post ∧
        (∀ c ∈ pre, c.infoGain < b.infoGain) ∧
        (∀ c ∈ post, c.infoGain ≤ b.infoGain)) :=
  findBestSplit_char samples

/-- Witness for `claimC4_characterization` on the four-sample scenario
dataset, whose best split is feature 0 at threshold 11/2 with gain 1/2. -/
theorem claimC4_characterization_witness :
    (⟨0, 11 / 2, 1 / 2, 0, 0⟩ : BestSplit) ∈ scanCandidates dataC1 ∧
    (0 : ℚ) < (⟨0, 11 / 2, 1 / 2, 0, 0⟩ : BestSplit).infoGain ∧
    ∃ pre post, scanCandidates dataC1 = pre ++ (⟨0, 11 / 2, 1 / 2, 0, 0⟩ : BestSplit) :: post ∧
      (∀ c ∈ pre, c.infoGain < (⟨0, 11 / 2, 1 / 2, 0, 0⟩ : BestSplit).infoGain) ∧
      (∀ c ∈ post, c.infoGain ≤ (⟨0, 11 / 2, 1 / 2, 0, 0⟩ : BestSplit).infoGain) :=
  (claimC4_characterization dataC1).2 ⟨0, 11 / 2, 1 / 2, 0, 0⟩ (by decide)

/-- Any returned best split names a feature in range and a threshold whose
two partitions are both nonempty, and is the candidate record built from
them. -/
theorem findBestSplit_valid {samples : List Sample} {b : BestSplit}
    (h : findBestSplit samples = some b) :
    ∃ fi th, b = candidateOf samples samples.length (gini samples) fi th ∧
      b.featureIndex = (fi : ℤ) ∧ b.threshold = th ∧ fi < nFeatures samples ∧
      (leftOf samples fi th).length ≠ 0 ∧ (rightOf samples fi th).length ≠ 0 := by
  rcases (findBestSplit_char samples).2 b h with ⟨hmem, _, _⟩
  rcases scanCandidates_mem hmem with ⟨fi, th, hlt, hl, hr, hcand⟩
  exact ⟨fi, th, hcand, by rw [hcand]; rfl, by rw [hcand]; rfl, hlt, hl, hr⟩

/-- The partitions the builder re-computes from a returned best split
(feature `featureIndex.toNat`, its threshold) are both nonempty. -/
theorem findBestSplit_partitions {samples : List Sample} {b : BestSplit}
    (h : findBestSplit samples = some b) :
    b.featureIndex.toNat < nFeatures samples ∧
    (leftOf samples b.featureIndex.toNat b.threshold).length ≠ 0 ∧
    (rightOf samples b.featureIndex.toNat b.threshold).length ≠ 0 := by
  rcases findBestSplit_valid h with ⟨fi, th, _, hfi, hth, hlt, hl, hr⟩
  rw [hfi, hth, Int.toNat_natCast]
  exact ⟨hlt, hl, hr⟩

/-- Two filters by incompatible predicates together keep at most all
elements. -/
theorem length_filter_disjoint {α : Type} (p q : α → Bool) (l : List α)
    (h : ∀ a, ¬(p a = true ∧ q a = true)) :
    (l.filter p).length + (l.filter q).length ≤ l.length := by
  induction l with
  | nil => simp
  | cons a t ih =>
    rw [List.filter_cons, List.filter_cons]
    by_cases hp : p a = true
    · have hq : ¬ q a = true := fun hq => h a ⟨hp, hq⟩
      rw [if_pos hp, if_neg hq]
      simp only [List.length_cons, List.length]
      omega
    · by_cases hq : q a = true
      · rw [if_neg hp, if_pos hq]
        simp only [List.length_cons, List.length]
        omega
      · rw [if_neg hp, if_neg hq]
        simp only [List.length_cons]
        omega

/-- A sample value cannot route both left and right. -/
theorem jsLe_jsGt_exclusive (v : Option ℚ) (t : ℚ) :
    ¬(jsLe v t = true ∧ jsGt v t = true) := by
  cases v with
  | none => simp [jsLe, jsGt]
  | some x =>
    simp only [jsLe, jsGt, decide_eq_true_eq]
    intro hx
    exact absurd hx.2 (not_lt.mpr hx.1)

/-- The two partitions of a sample list keep at most all samples. -/
theorem leftOf_rightOf_length (samples : List Sample) (fi : ℕ) (th : ℚ) :
    (leftOf samples fi th).length + (rightOf samples fi th).length ≤ samples.length :=
  length_filter_disjoint _ _ samples (fun s => jsLe_jsGt_exclusive (s.features.get? fi) th)

/-- Unfolding equation for the iteration bound. -/
theorem nodeBound_eq (n : ℕ) : nodeBound n = if n = 0 then 1 else 2 * n - 1 := rfl

/-- Every queue entry costs at least one iteration's worth of bound. -/
theorem nodeBound_pos (n : ℕ) : 1 ≤ nodeBound n := by
  rw [nodeBound_eq]
  split <;> omega

/-- The measure of a cons queue. -/
theorem queueMeasure_cons (p : Pending) (q : List Pending) :
    queueMeasure (p :: q) = nodeBound p.samples.length + queueMeasure q := by
  simp [queueMeasure]

/-- The measure of a concatenated queue. -/
theorem queueMeasure_append (q1 q2 : List Pending) :
    queueMeasure (q1 ++ q2) = queueMeasure q1 + queueMeasure q2 := by
  simp [queueMeasure]

/-- Replacing a dequeued split node by its two children strictly decreases
the queue measure: both partitions are nonempty and together no larger than
the node's samples. -/
theorem queueMeasure_split {samples : List Sample} {b : BestSplit}
    (h : findBestSplit samples = some b) (rest : List Pending) (i1 i2 d1 d2 : ℕ) :
    queueMeasure (rest ++ [⟨i1, leftOf samples b.featureIndex.toNat b.threshold, d1⟩,
        ⟨i2, rightOf samples b.featureIndex.toNat b.threshold, d2⟩]) <
      nodeBound samples.length + queueMeasure rest := by
  rcases findBestSplit_partitions h with ⟨_, hl, hr⟩
  have hsum := leftOf_rightOf_length samples b.featureIndex.toNat b.threshold
  rw [queueMeasure_append, queueMeasure_cons, queueMeasure_cons]
  simp only [queueMeasure, List.map_nil, List.sum_nil]
  have hn : samples.length ≠ 0 := by omega
  rw [nodeBound_eq, nodeBound_eq, nodeBound_eq, if_neg hl, if_neg hr, if_neg hn]
  omega

/-- Unfolding: a dequeued node meeting the stopping rule becomes a leaf. -/
theorem processQueue_cons_stop (maxD minSS : ℤ) (fuel : ℕ) (p : Pending) (rest : List Pending)
    (i : ℕ) (hstop : stopRule maxD minSS p) :
    processQueue maxD minSS (fuel + 1) (p :: rest) i =
      (.node_created (mkNodeData p) :: (processQueue maxD minSS fuel rest i).1,
        .leaf (mkNodeData p) :: (processQueue maxD minSS fuel rest i).2) := by
  simp only [processQueue, if_pos hstop]

/-- Unfolding: a dequeued node with no split candidate becomes a leaf. -/
theorem processQueue_cons_nosplit (maxD minSS : ℤ) (fuel : ℕ) (p : Pending)
    (rest : List Pending) (i : ℕ) (hstop : ¬ stopRule maxD minSS p)
    (hfb : findBestSplit p.samples = none) :
    processQueue maxD minSS (fuel + 1) (p :: rest) i =
      (.node_created (mkNodeData p) :: (processQueue maxD minSS fuel rest i).1,
        .leaf (mkNodeData p) :: (processQueue maxD minSS fuel rest i).2) := by
  simp only [processQueue, if_neg hstop, hfb]

/-- Unfolding: a dequeued node whose best candidate has no positive gain
becomes a leaf. -/
theorem processQueue_cons_gain (maxD minSS : ℤ) (fuel : ℕ) (p : Pending)
    (rest : List Pending) (i : ℕ) {best : BestSplit} (hstop : ¬ stopRule maxD minSS p)
    (hfb : findBestSplit p.samples = some best) (hgain : best.infoGain ≤ 0) :
    processQueue maxD minSS (fuel + 1) (p :: rest) i =
      (.node_created (mkNodeData p) :: (processQueue maxD minSS fuel rest i).1,
        .leaf (mkNodeData p) :: (processQueue maxD minSS fuel rest i).2) := by
  simp only [processQueue, if_neg hstop, hfb, if_pos hgain]

/-- Unfolding: a dequeued node with a positive-gain candidate splits. -/
theorem processQueue_cons_split (maxD minSS : ℤ) (fuel : ℕ) (p : Pending)
    (rest : List Pending) (i : ℕ) {best : BestSplit} (hstop : ¬ stopRule maxD minSS p)
    (hfb : findBestSplit p.samples = some best) (hgain : ¬ best.infoGain ≤ 0) :
    processQueue maxD minSS (fuel + 1) (p :: rest) i =
      (.split (mkNodeData p) best.featureIndex.toNat best.threshold best.infoGain
          (mkNodeData ⟨i, leftOf p.samples best.featureIndex.toNat best.threshold, p.depth + 1⟩)
          (mkNodeData ⟨i + 1, rightOf p.samples best.featureIndex.toNat best.threshold,
            p.depth + 1⟩) ::
          (processQueue maxD minSS fuel
            (rest ++ [⟨i, leftOf p.samples best.featureIndex.toNat best.threshold, p.depth + 1⟩,
              ⟨i + 1, rightOf p.samples best.featureIndex.toNat best.threshold, p.depth + 1⟩])
            (i + 2)).1,
        .split (mkNodeData p) best.featureIndex.toNat best.threshold best.infoGain
          ((processQueue maxD minSS fuel
            (rest ++ [⟨i, leftOf p.samples best.featureIndex.toNat best.threshold, p.depth + 1⟩,
              ⟨i + 1, rightOf p.samples best.featureIndex.toNat best.threshold, p.depth + 1⟩])
            (i + 2)).2.getD rest.length
            (.leaf (mkNodeData
              ⟨i, leftOf p.samples best.featureIndex.toNat best.threshold, p.depth + 1⟩)))
          ((processQueue maxD minSS fuel
            (rest ++ [⟨i, leftOf p.samples best.featureIndex.toNat best.threshold, p.depth + 1⟩,
              ⟨i + 1, rightOf p.samples best.featureIndex.toNat best.threshold, p.depth + 1⟩])
            (i + 2)).2.getD (rest.length + 1)
            (.leaf (mkNodeData
              ⟨i + 1, rightOf p.samples best.featureIndex.toNat best.threshold, p.depth + 1⟩))) ::
          (processQueue maxD minSS fuel
            (rest ++ [⟨i, leftOf p.samples best.featureIndex.toNat best.threshold, p.depth + 1⟩,
              ⟨i + 1, rightOf p.samples best.featureIndex.toNat best.threshold, p.depth + 1⟩])
            (i + 2)).2.take rest.length) := by
  simp only [processQueue, if_neg hstop, hfb, if_neg hgain]

/-- Any two sufficient fuels give identical results: the loop drains the
queue and stops on its own before the fuel runs out. -/
theorem processQueue_stable (maxD minSS : ℤ) :
    ∀ f1 f2 q i, queueMeasure q ≤ f1 → queueMeasure q ≤ f2 →
      processQueue maxD minSS f1 q i = processQueue maxD minSS f2 q i := by
  intro f1
  induction f1 with
  | zero =>
    intro f2 q i h1 h2
    cases q with
    | nil => cases f2 <;> rfl
    | cons p rest =>
      exfalso
      have := nodeBound_pos p.samples.length
      rw [queueMeasure_cons] at h1
      omega
  | succ g ih =>
    intro f2 q i h1 h2
    cases q with
    | nil => cases f2 <;> rfl
    | cons p rest =>
      have hb := nodeBound_pos p.samples.length
      rw [queueMeasure_cons] at h1 h2
      cases f2 with
      | zero => omega
      | succ g2 =>
        by_cases hstop : stopRule maxD minSS p
        · rw [processQueue_cons_stop maxD minSS g p rest i hstop,
            processQueue_cons_stop maxD minSS g2 p rest i hstop,
            ih g2 rest i (by omega) (by omega)]
        · cases hfb : findBestSplit p.samples with
          | none =>
            rw [processQueue_cons_nosplit maxD minSS g p rest i hstop hfb,
              processQueue_cons_nosplit maxD minSS g2 p rest i hstop hfb,
              ih g2 rest i (by omega) (by omega)]
          | some best =>
            by_cases hgain : best.infoGain ≤ 0
            · rw [processQueue_cons_gain maxD minSS g p rest i hstop hfb hgain,
                processQueue_cons_gain maxD minSS g2 p rest i hstop hfb hgain,
                ih g2 rest i (by omega) (by omega)]
            · have hdec := queueMeasure_split hfb rest i (i + 1) (p.depth + 1) (p.depth + 1)
              rw [processQueue_cons_split maxD minSS g p rest i hstop hfb hgain,
                processQueue_cons_split maxD minSS g2 p rest i hstop hfb hgain,
                ih g2 _ (i + 2) (by omega) (by omega)]

/-- The loop yields only per-node events; `done` comes after it drains. -/
theorem processQueue_no_done (maxD minSS : ℤ) :
    ∀ fuel q i e, e ∈ (processQueue maxD minSS fuel q i).1 → e.isDone = false := by
  intro fuel
  induction fuel with
  | zero =>
    intro q i e he
    simp [processQueue] at he
  | succ g ih =>
    intro q i e he
    cases q with
    | nil => simp [processQueue] at he
    | cons p rest =>
      by_cases hstop : stopRule maxD minSS p
      · rw [processQueue_cons_stop maxD minSS g p rest i hstop] at he
        rcases List.mem_cons.mp he with rfl | he
        · rfl
        · exact ih rest i e he
      · cases hfb : findBestSplit p.samples with
        | none =>
          rw [processQueue_cons_nosplit maxD minSS g p rest i hstop hfb] at he
          rcases List.mem_cons.mp he with rfl | he
          · rfl
          · exact ih rest i e he
        | some best =>
          by_cases hgain : best.infoGain ≤ 0
          · rw [processQueue_cons_gain maxD minSS g p rest i hstop hfb hgain] at he
            rcases List.mem_cons.mp he with rfl | he
            · rfl
            · exact ih rest i e he
          · rw [processQueue_cons_split maxD minSS g p rest i hstop hfb hgain] at he
            rcases List.mem_cons.mp he with rfl | he
            · rfl
            · exact ih _ _ e he

/-- The chosen default fuel is at least the iteration bound of the initial
queue. -/
theorem sufficientFuel_le (samples : List Sample) :
    queueMeasure [rootPending samples] ≤ sufficientFuel samples := by
  have h : queueMeasure [rootPending samples] = nodeBound samples.length := by
    simp [queueMeasure, rootPending]
  rw [h, nodeBound_eq, sufficientFuel]
  split <;> omega

/-- C8: every build terminates on its own: the drained event sequence is
finite, ends with exactly one `done` event carrying the completed root
(no earlier event is a `done`), and giving the loop any more fuel than the
default changes nothing, i.e. the queue empties before the bound is hit. -/
theorem claimC8_termination (samples : List Sample) (maxDepth minSamplesSplit : ℤ) :
    (∃ evs root, buildTreeStepwise samples maxDepth minSamplesSplit = evs ++ [.done root] ∧
      ∀ e ∈ evs, e.isDone = false) ∧
    (∀ fuel, sufficientFuel samples ≤ fuel →
      buildTreeStepwiseFuel fuel samples maxDepth minSamplesSplit =
        buildTreeStepwise samples maxDepth minSamplesSplit) := by
  constructor
  · refine ⟨(processQueue maxDepth minSamplesSplit (sufficientFuel samples)
      [rootPending samples] 2).1, _, rfl, ?_⟩
    intro e he
    exact processQueue_no_done maxDepth minSamplesSplit _ _ _ e he
  · intro fuel hf
    unfold buildTreeStepwise buildTreeStepwiseFuel
    rw [processQueue_stable maxDepth minSamplesSplit fuel (sufficientFuel samples)
      [rootPending samples] 2 (le_trans (sufficientFuel_le samples) hf)
      (sufficientFuel_le samples)]

/-- Witness for `claimC8_termination` on the four-sample scenario with one
extra unit of fuel. -/
theorem claimC8_termination_witness :
    sufficientFuel dataC1 ≤ sufficientFuel dataC1 + 1 ∧
    buildTreeStepwiseFuel (sufficientFuel dataC1 + 1) dataC1 3 2 =
      buildTreeStepwise dataC1 3 2 :=
  ⟨Nat.le_succ _,
    (claimC8_termination dataC1 3 2).2 (sufficientFuel dataC1 + 1) (Nat.le_succ _)⟩

/-- `getD` commutes with `map` when the default is mapped too. -/
theorem getD_map_align {α β : Type} (f : α → β) (l : List α) (d : α) (k : ℕ) :
    (l.map f).getD k (f d) = f (l.getD k d) := by
  rw [List.getD_eq_get?, List.getD_eq_get?, List.get?_map]
  cases l.get? k <;> rfl

/-- The finished subtrees answer the queue entries positionally: mapping
each returned tree to its root's queue data gives back the queue. -/
theorem processQueue_map_pendingData (maxD minSS : ℤ) :
    ∀ fuel q i, queueMeasure q ≤ fuel →
      (processQueue maxD minSS fuel q i).2.map pendingData = q := by
  intro fuel
  induction fuel with
  | zero =>
    intro q i h
    cases q with
    | nil => rfl
    | cons p rest =>
      exfalso
      have := nodeBound_pos p.samples.length
      rw [queueMeasure_cons] at h
      omega
  | succ g ih =>
    intro q i h
    cases q with
    | nil => rfl
    | cons p rest =>
      have hb := nodeBound_pos p.samples.length
      rw [queueMeasure_cons] at h
      by_cases hstop : stopRule maxD minSS p
      · rw [processQueue_cons_stop maxD minSS g p rest i hstop]
        simp only [List.map_cons]
        rw [ih rest i (by omega)]
        rfl
      · cases hfb : findBestSplit p.samples with
        | none =>
          rw [processQueue_cons_nosplit maxD minSS g p rest i hstop hfb]
          simp only [List.map_cons]
          rw [ih rest i (by omega)]
          rfl
        | some best =>
          by_cases hgain : best.infoGain ≤ 0
          · rw [processQueue_cons_gain maxD minSS g p rest i hstop hfb hgain]
            simp only [List.map_cons]
            rw [ih rest i (by omega)]
            rfl
          · have hdec := queueMeasure_split hfb rest i (i + 1) (p.depth + 1) (p.depth + 1)
            rw [processQueue_cons_split maxD minSS g p rest i hstop hfb hgain]
            simp only [List.map_cons, List.map_take]
            rw [ih _ (i + 2) (by omega)]
            rw [List.take_left]
            rfl

/-- Value of `getD` at the first appended position. -/
theorem getD_append_self {α : Type} (l : List α) (a b d : α) :
    (l ++ [a, b]).getD l.length d = a := by
  rw [List.getD_append_right l [a, b] d l.length (le_refl l.length)]
  simp

/-- Value of `getD` at the second appended position. -/
theorem getD_append_succ {α : Type} (l : List α) (a b d : α) :
    (l ++ [a, b]).getD (l.length + 1) d = b := by
  rw [List.getD_append_right l [a, b] d (l.length + 1) (Nat.le_succ _)]
  simp

/-- Every finished subtree the loop returns is structurally sound. -/
theorem processQueue_good (maxD minSS : ℤ) :
    ∀ fuel q i, queueMeasure q ≤ fuel →
      ∀ t ∈ (processQueue maxD minSS fuel q i).2, GoodTree maxD t := by
  intro fuel
  induction fuel with
  | zero =>
    intro q i h t ht
    simp [processQueue] at ht
  | succ g ih =>
    intro q i h t ht
    cases q with
    | nil => simp [processQueue] at ht
    | cons p rest =>
      have hb := nodeBound_pos p.samples.length
      rw [queueMeasure_cons] at h
      by_cases hstop : stopRule maxD minSS p
      · rw [processQueue_cons_stop maxD minSS g p rest i hstop] at ht
        rcases List.mem_cons.mp ht with rfl | ht
        · trivial
        · exact ih rest i (by omega) t ht
      · cases hfb : findBestSplit p.samples with
        | none =>
          rw [processQueue_cons_nosplit maxD minSS g p rest i hstop hfb] at ht
          rcases List.mem_cons.mp ht with rfl | ht
          · trivial
          · exact ih rest i (by omega) t ht
        | some best =>
          by_cases hgain : best.infoGain ≤ 0
          · rw [processQueue_cons_gain maxD minSS g p rest i hstop hfb hgain] at ht
            rcases List.mem_cons.mp ht with rfl | ht
            · trivial
            · exact ih rest i (by omega) t ht
          · have hdec := queueMeasure_split hfb rest i (i + 1) (p.depth + 1) (p.depth + 1)
            have hfuel : queueMeasure (rest ++
                [⟨i, leftOf p.samples best.featureIndex.toNat best.threshold, p.depth + 1⟩,
                  ⟨i + 1, rightOf p.samples best.featureIndex.toNat best.threshold,
                    p.depth + 1⟩]) ≤ g := by omega
            have hmap := processQueue_map_pendingData maxD minSS g _ (i + 2) hfuel
            have hlen : (processQueue maxD minSS g
                (rest ++
                  [⟨i, leftOf p.samples best.featureIndex.toNat best.threshold, p.depth + 1⟩,
                    ⟨i + 1, rightOf p.samples best.featureIndex.toNat best.threshold,
                      p.depth + 1⟩])
                (i + 2)).2.length = rest.length + 2 := by
              have hcl := congrArg List.length hmap
              simpa using hcl
            rw [processQueue_cons_split maxD minSS g p rest i hstop hfb hgain] at ht
            rcases List.mem_cons.mp ht with rfl | ht
            · have hpl := getD_map_align pendingData
                (processQueue maxD minSS g
                  (rest ++
                    [⟨i, leftOf p.samples best.featureIndex.toNat best.threshold, p.depth + 1⟩,
                      ⟨i + 1, rightOf p.samples best.featureIndex.toNat best.threshold,
                        p.depth + 1⟩])
                  (i + 2)).2
                (.leaf (mkNodeData
                  ⟨i, leftOf p.samples best.featureIndex.toNat best.threshold, p.depth + 1⟩))
                rest.length
              have hpr := getD_map_align pendingData
                (processQueue maxD minSS g
                  (rest ++
                    [⟨i, leftOf p.samples best.featureIndex.toNat best.threshold, p.depth + 1⟩,
                      ⟨i + 1, rightOf p.samples best.featureIndex.toNat best.threshold,
                        p.depth + 1⟩])
                  (i + 2)).2
                (.leaf (mkNodeData
                  ⟨i + 1, rightOf p.samples best.featureIndex.toNat best.threshold, p.depth + 1⟩))
                (rest.length + 1)
              rw [hmap] at hpl hpr
              rw [getD_append_self] at hpl
              rw [getD_append_succ] at hpr
              have hmeml : (processQueue maxD minSS g
                  (rest ++
                    [⟨i, leftOf p.samples best.featureIndex.toNat best.threshold, p.depth + 1⟩,
                      ⟨i + 1, rightOf p.samples best.featureIndex.toNat best.threshold,
                        p.depth + 1⟩])
                  (i + 2)).2.getD rest.length
                  (.leaf (mkNodeData
                    ⟨i, leftOf p.samples best.featureIndex.toNat best.threshold,
                      p.depth + 1⟩)) ∈
                  (processQueue maxD minSS g
                    (rest ++
                      [⟨i, leftOf p.samples best.featureIndex.toNat best.threshold, p.depth + 1⟩,
                        ⟨i + 1, rightOf p.samples best.featureIndex.toNat best.threshold,
                          p.depth + 1⟩])
                    (i + 2)).2 := by
                rw [List.getD_eq_getElem _ _ (by omega)]
                exact List.getElem_mem _
              have hmemr : (processQueue maxD minSS g
                  (rest ++
                    [⟨i, leftOf p.samples best.featureIndex.toNat best.threshold, p.depth + 1⟩,
                      ⟨i + 1, rightOf p.samples best.featureIndex.toNat best.threshold,
                        p.depth + 1⟩])
                  (i + 2)).2.getD (rest.length + 1)
                  (.leaf (mkNodeData
                    ⟨i + 1, rightOf p.samples best.featureIndex.toNat best.threshold,
                      p.depth + 1⟩)) ∈
                  (processQueue maxD minSS g
                    (rest ++
                      [⟨i, leftOf p.samples best.featureIndex.toNat best.threshold, p.depth + 1⟩,
                        ⟨i + 1, rightOf p.samples best.featureIndex.toNat best.threshold,
                          p.depth + 1⟩])
                    (i + 2)).2 := by
                rw [List.getD_eq_getElem _ _ (by omega)]
                exact List.getElem_mem _
              refine ⟨⟨best, hfb, rfl, rfl, rfl, lt_of_not_ge hgain⟩, ?_, ?_, ?_, ?_, ?_, ?_, ?_⟩
              · rw [stopRule] at hstop
                push_neg at hstop
                exact hstop.1
              · exact congrArg Pending.samples hpl.symm
              · exact congrArg Pending.samples hpr.symm
              · exact congrArg Pending.depth hpl.symm
              · exact congrArg Pending.depth hpr.symm
              · exact ih _ (i + 2) hfuel _ hmeml
              · exact ih _ (i + 2) hfuel _ hmemr
            · exact ih _ (i + 2) hfuel t (List.mem_of_mem_take ht)

/-- The completed root is structurally sound. -/
theorem doneRoot_good (samples : List Sample) (maxD minSS : ℤ) :
    GoodTree maxD (doneRoot samples maxD minSS) := by
  have hmap := processQueue_map_pendingData maxD minSS (sufficientFuel samples)
    [rootPending samples] 2 (sufficientFuel_le samples)
  have hlen : (processQueue maxD minSS (sufficientFuel samples)
      [rootPending samples] 2).2.length = 1 := by
    have hcl := congrArg List.length hmap
    simpa using hcl
  unfold doneRoot
  have hmem : (processQueue maxD minSS (sufficientFuel samples)
      [rootPending samples] 2).2.getD 0 (.leaf (mkNodeData (rootPending samples))) ∈
      (processQueue maxD minSS (sufficientFuel samples) [rootPending samples] 2).2 := by
    rw [List.getD_eq_getElem _ _ (by omega)]
    exact List.getElem_mem _
  exact processQueue_good maxD minSS (sufficientFuel samples) [rootPending samples] 2
    (sufficientFuel_le samples) _ hmem

/-- The completed root answers the seeded root entry: id 1, the full input
samples, depth 0. -/
theorem doneRoot_pendingData (samples : List Sample) (maxD minSS : ℤ) :
    pendingData (doneRoot samples maxD minSS) = rootPending samples := by
  have hmap := processQueue_map_pendingData maxD minSS (sufficientFuel samples)
    [rootPending samples] 2 (sufficientFuel_le samples)
  have h := getD_map_align pendingData
    (processQueue maxD minSS (sufficientFuel samples) [rootPending samples] 2).2
    (.leaf (mkNodeData (rootPending samples))) 0
  rw [hmap] at h
  unfold doneRoot
  rw [← h]
  rfl

/-- Every sample in a leaf's partition already sits in the subtree root's
partition. -/
theorem leaves_samples_subset (maxD : ℤ) :
    ∀ t, GoodTree maxD t → ∀ L ∈ leavesOf t, ∀ s ∈ L.samples, s ∈ t.data.samples := by
  intro t
  induction t with
  | leaf nd =>
    intro _ L hL s hs
    simp only [leavesOf, List.mem_singleton] at hL
    subst hL
    exact hs
  | split nd fi th g l r ihl ihr =>
    intro hg L hL s hs
    rcases hg with ⟨_, _, hls, hrs, _, _, hgl, hgr⟩
    rcases List.mem_append.mp (by simpa [leavesOf] using hL) with hL | hL
    · have hmem := ihl hgl L hL s hs
      rw [hls] at hmem
      unfold leftOf at hmem
      exact (List.mem_filter.mp hmem).1
    · have hmem := ihr hgr L hL s hs
      rw [hrs] at hmem
      unfold rightOf at hmem
      exact (List.mem_filter.mp hmem).1

/-- Classification consistency on sound subtrees: a sample belonging to a
leaf's training partition is routed to that leaf. -/
theorem classifyGo_mem (maxD : ℤ) :
    ∀ t, GoodTree maxD t →
      ∀ L ∈ leavesOf t, ∀ s ∈ L.samples, classifyGo t s.features = L.prediction := by
  intro t
  induction t with
  | leaf nd =>
    intro _ L hL s _
    simp only [leavesOf, List.mem_singleton] at hL
    subst hL
    rfl
  | split nd fi th g l r ihl ihr =>
    intro hg L hL s hs
    obtain ⟨_, _, hls, hrs, _, _, hgl, hgr⟩ := hg
    rcases List.mem_append.mp (by simpa [leavesOf] using hL) with hL | hL
    · have hsl := leaves_samples_subset maxD l hgl L hL s hs
      rw [hls] at hsl
      unfold leftOf at hsl
      have hle := (List.mem_filter.mp hsl).2
      simp only [classifyGo, hle, if_pos]
      exact ihl hgl L hL s hs
    · have hsr := leaves_samples_subset maxD r hgr L hL s hs
      rw [hrs] at hsr
      unfold rightOf at hsr
      have hgt := (List.mem_filter.mp hsr).2
      have hle : jsLe (s.features.get? fi) th = false := by
        cases hv : s.features.get? fi with
        | none => rfl
        | some x =>
          rw [hv] at hgt
          simp only [jsGt, decide_eq_true_eq] at hgt
          simp only [jsLe, decide_eq_false_iff_not]
          exact not_le.mpr hgt
      simp only [classifyGo, hle, Bool.false_eq_true, if_false]
      exact ihr hgr L hL s hs

/-- C3: for every sample `s` of the input and every leaf of the completed
tree whose training partition contains `s`, classifying `s.features` from
the root returns that leaf's prediction: the classifier routes with exactly
the partition rule (`<=` goes left, including equality, `>` goes right). -/
theorem claimC3_classify (samples : List Sample) (maxDepth minSamplesSplit : ℤ)
    (L : NodeData) (s : Sample)
    (hL : L ∈ leavesOf (doneRoot samples maxDepth minSamplesSplit))
    (hs : s ∈ L.samples) :
    classify (some (doneRoot samples maxDepth minSamplesSplit)) s.features =
      some L.prediction := by
  show some (classifyGo (doneRoot samples maxDepth minSamplesSplit) s.features) =
    some L.prediction
  rw [classifyGo_mem maxDepth _ (doneRoot_good samples maxDepth minSamplesSplit) L hL s hs]

/-- Witness for `claimC3_classify`: the sample `([0], "A")` lies in the
left leaf's partition of the scenario tree and classifies to "A". -/
theorem claimC3_classify_witness :
    (⟨2, [⟨[0], "A"⟩, ⟨[1], "A"⟩], 1, "A", 0⟩ : NodeData) ∈ leavesOf (doneRoot dataC1 3 2) ∧
    (⟨[0], "A"⟩ : Sample) ∈ [(⟨[0], "A"⟩ : Sample), ⟨[1], "A"⟩] ∧
    classify (some (doneRoot dataC1 3 2)) [0] = some "A" :=
  ⟨by decide, by decide,
    claimC3_classify dataC1 3 2 ⟨2, [⟨[0], "A"⟩, ⟨[1], "A"⟩], 1, "A", 0⟩ ⟨[0], "A"⟩
      (by decide) (by decide)⟩

/-- Depth of any node of a sound subtree is bounded by the larger of the
subtree root's depth and `maxDepth` (splits happen strictly below
`maxDepth` and children sit one deeper). -/
theorem goodTree_depth_le (maxD : ℤ) :
    ∀ t, GoodTree maxD t →
      ∀ u ∈ subtrees t, (u.data.depth : ℤ) ≤ max (t.data.depth : ℤ) maxD := by
  intro t
  induction t with
  | leaf nd =>
    intro _ u hu
    simp only [subtrees, List.mem_singleton] at hu
    subst hu
    exact le_max_left _ _
  | split nd fi th g l r ihl ihr =>
    intro hg u hu
    obtain ⟨_, hdlt, _, _, hdl, hdr, hgl, hgr⟩ := hg
    rcases List.mem_cons.mp hu with rfl | hu
    · exact le_max_left _ _
    rcases List.mem_append.mp hu with hu | hu
    · have h := ihl hgl u hu
      rw [hdl] at h
      have hchild : ((nd.depth + 1 : ℕ) : ℤ) ≤ maxD := by push_cast; omega
      rw [max_eq_right hchild] at h
      exact le_trans h (le_max_right _ _)
    · have h := ihr hgr u hu
      rw [hdr] at h
      have hchild : ((nd.depth + 1 : ℕ) : ℤ) ≤ maxD := by push_cast; omega
      rw [max_eq_right hchild] at h
      exact le_trans h (le_max_right _ _)

/-- C7: with `maxDepth >= 0`, no node of the completed tree sits deeper
than `maxDepth` (the root has depth 0 and any node at depth `>= maxDepth`
is made a leaf). -/
theorem claimC7_depth (samples : List Sample) (maxDepth minSamplesSplit : ℤ)
    (h : 0 ≤ maxDepth) :
    ∀ u ∈ subtrees (doneRoot samples maxDepth minSamplesSplit),
      (u.data.depth : ℤ) ≤ maxDepth := by
  intro u hu
  have hb := goodTree_depth_le maxDepth _
    (doneRoot_good samples maxDepth minSamplesSplit) u hu
  have hd : (doneRoot samples maxDepth minSamplesSplit).data.depth = 0 :=
    congrArg Pending.depth (doneRoot_pendingData samples maxDepth minSamplesSplit)
  rw [hd] at hb
  simpa [max_eq_right h] using hb

/-- Witness for `claimC7_depth` on the scenario build with depth cap 3. -/
theorem claimC7_depth_witness :
    (0 : ℤ) ≤ 3 ∧
    ∀ u ∈ subtrees (doneRoot dataC1 3 2), (u.data.depth : ℤ) ≤ 3 :=
  ⟨by decide, claimC7_depth dataC1 3 2 (by decide)⟩

/-- An in-range index always finds a value. -/
theorem get?_isSome_of_lt {α : Type} (l : List α) (n : ℕ) (h : n < l.length) :
    ∃ x, l.get? n = some x :=
  ⟨l.get ⟨n, h⟩, List.get?_eq_get h⟩

/-- Partition invariant on sound subtrees over a uniform-width dataset:
each internal node's children carry exactly the `<=` filter and the `>`
filter, which are disjoint and together a permutation of the node's
samples. -/
theorem goodTree_partition (maxD : ℤ) (F : ℕ) :
    ∀ t, GoodTree maxD t → UniformFeatures F t.data.samples →
      ∀ u ∈ subtrees t, ∀ nd fi th g l r, u = TreeNode.split nd fi th g l r →
        l.data.samples = leftOf nd.samples fi th ∧
        r.data.samples = rightOf nd.samples fi th ∧
        l.data.samples.Disjoint r.data.samples ∧
        (l.data.samples ++ r.data.samples).Perm nd.samples := by
  intro t
  induction t with
  | leaf _ =>
    intro _ _ u hu nd fi th g l r hu2
    simp only [subtrees, List.mem_singleton] at hu
    subst hu
    cases hu2
  | split nd0 fi0 th0 g0 l0 r0 ihl ihr =>
    intro hg hU u hu nd fi th g l r hu2
    obtain ⟨⟨b, hfb, hbf, hbt, hbg, hbpos⟩, _, hls, hrs, _, _, hgl, hgr⟩ := hg
    have hU0 : UniformFeatures F nd0.samples := hU
    have hUl : UniformFeatures F l0.data.samples := by
      intro s hs
      rw [hls] at hs
      unfold leftOf at hs
      exact hU s (List.mem_filter.mp hs).1
    have hUr : UniformFeatures F r0.data.samples := by
      intro s hs
      rw [hrs] at hs
      unfold rightOf at hs
      exact hU s (List.mem_filter.mp hs).1
    rcases List.mem_cons.mp hu with rfl | hu
    · cases hu2
      refine ⟨hls, hrs, ?_, ?_⟩
      · intro s hsl hsr
        rw [hls] at hsl
        rw [hrs] at hsr
        unfold leftOf at hsl
        unfold rightOf at hsr
        exact jsLe_jsGt_exclusive (s.features.get? fi0) th0
          ⟨(List.mem_filter.mp hsl).2, (List.mem_filter.mp hsr).2⟩
      · rw [hls, hrs]
        have hfi := (findBestSplit_partitions hfb).1
        rw [hbf] at hfi
        have hne : nd0.samples ≠ [] := by
          intro hnil
          rw [hnil] at hfi
          simp [nFeatures] at hfi
        have hflt : fi0 < F := by
          cases hsamp : nd0.samples with
          | nil => exact absurd hsamp hne
          | cons s0 rest0 =>
            rw [hsamp] at hfi
            simp only [nFeatures] at hfi
            rw [hU0 s0 (by rw [hsamp]; exact List.mem_cons_self _ _)] at hfi
            exact hfi
        have hcong : rightOf nd0.samples fi0 th0 =
            nd0.samples.filter (fun s => !(jsLe (s.features.get? fi0) th0)) := by
          unfold rightOf
          apply List.filter_congr
          intro s hs
          have hlen : fi0 < s.features.length := by
            rw [hU0 s hs]
            exact hflt
          obtain ⟨x, hx⟩ := get?_isSome_of_lt _ _ hlen
          rw [hx]
          simp only [jsLe, jsGt]
          rcases le_or_lt x th0 with hxt | hxt
          · simp [hxt, not_lt.mpr hxt]
          · simp [hxt, not_le.mpr hxt]
        rw [hcong]
        exact List.filter_append_perm _ _
    rcases List.mem_append.mp hu with hu | hu
    · exact ihl hgl hUl u hu nd fi th g l r hu2
    · exact ihr hgr hUr u hu nd fi th g l r hu2

/-- C2 (amended): over a dataset of uniform feature-vector length, every
internal node of the completed tree carries as left child exactly the
samples with `features[featureIndex] <= threshold`, as right child exactly
the complement (`features[featureIndex] > threshold`), and the two
children's sample multisets are disjoint with multiset union equal to the
node's samples. -/
theorem claimC2_partition (samples : List Sample) (maxDepth minSamplesSplit : ℤ) (F : ℕ)
    (hU : UniformFeatures F samples) :
    ∀ u ∈ subtrees (doneRoot samples maxDepth minSamplesSplit),
      ∀ nd fi th g l r, u = TreeNode.split nd fi th g l r →
        l.data.samples = leftOf nd.samples fi th ∧
        r.data.samples = rightOf nd.samples fi th ∧
        l.data.samples.Disjoint r.data.samples ∧
        (l.data.samples ++ r.data.samples).Perm nd.samples := by
  have hds : (doneRoot samples maxDepth minSamplesSplit).data.samples = samples :=
    congrArg Pending.samples (doneRoot_pendingData samples maxDepth minSamplesSplit)
  exact goodTree_partition maxDepth F _ (doneRoot_good samples maxDepth minSamplesSplit)
    (by rw [hds]; exact hU)

/-- Witness for `claimC2_partition` at the scenario tree's root split. -/
theorem claimC2_partition_witness :
    UniformFeatures 1 dataC1 ∧
    ((TreeNode.leaf ⟨2, [⟨[0], "A"⟩, ⟨[1], "A"⟩], 1, "A", 0⟩).data.samples =
        leftOf (⟨1, dataC1, 0, "A", 1 / 2⟩ : NodeData).samples 0 (11 / 2) ∧
      (TreeNode.leaf ⟨3, [⟨[10], "B"⟩, ⟨[11], "B"⟩], 1, "B", 0⟩).data.samples =
        rightOf (⟨1, dataC1, 0, "A", 1 / 2⟩ : NodeData).samples 0 (11 / 2) ∧
      (TreeNode.leaf ⟨2, [⟨[0], "A"⟩, ⟨[1], "A"⟩], 1, "A", 0⟩).data.samples.Disjoint
        (TreeNode.leaf ⟨3, [⟨[10], "B"⟩, ⟨[11], "B"⟩], 1, "B", 0⟩).data.samples ∧
      ((TreeNode.leaf ⟨2, [⟨[0], "A"⟩, ⟨[1], "A"⟩], 1, "A", 0⟩).data.samples ++
          (TreeNode.leaf ⟨3, [⟨[10], "B"⟩, ⟨[11], "B"⟩], 1, "B", 0⟩).data.samples).Perm
        (⟨1, dataC1, 0, "A", 1 / 2⟩ : NodeData).samples) :=
  ⟨by unfold UniformFeatures; decide,
    claimC2_partition dataC1 3 2 1 (by unfold UniformFeatures; decide)
      (TreeNode.split ⟨1, dataC1, 0, "A", 1 / 2⟩ 0 (11 / 2) (1 / 2)
        (TreeNode.leaf ⟨2, [⟨[0], "A"⟩, ⟨[1], "A"⟩], 1, "A", 0⟩)
        (TreeNode.leaf ⟨3, [⟨[10], "B"⟩, ⟨[11], "B"⟩], 1, "B", 0⟩))
      (by decide) ⟨1, dataC1, 0, "A", 1 / 2⟩ 0 (11 / 2) (1 / 2)
      (TreeNode.leaf ⟨2, [⟨[0], "A"⟩, ⟨[1], "A"⟩], 1, "A", 0⟩)
      (TreeNode.leaf ⟨3, [⟨[10], "B"⟩, ⟨[11], "B"⟩], 1, "B", 0⟩) rfl⟩

/-- Two explicit positions form a `range'` tail. -/
theorem range'_two (m : ℕ) : [m, m + 1] = List.range' m 2 := rfl

/-- BFS id discipline: if the queue's ids are consecutive starting at `k`
and the shared counter equals the next free id, then the emitted events
carry exactly the consecutive ids from `k` in order, and every split event
announces children with strictly larger ids than its subject. -/
theorem processQueue_ids (maxD minSS : ℤ) :
    ∀ fuel q k, queueMeasure q ≤ fuel →
      q.map Pending.id = List.range' k q.length →
      (processQueue maxD minSS fuel q (k + q.length)).1.map eventId =
        List.range' k ((processQueue maxD minSS fuel q (k + q.length)).1.length) ∧
      ∀ e ∈ (processQueue maxD minSS fuel q (k + q.length)).1,
        ∀ cid ∈ eventChildIds e, eventId e < cid := by
  intro fuel
  induction fuel with
  | zero =>
    intro q k h hid
    refine ⟨rfl, ?_⟩
    intro e he
    simp [processQueue] at he
  | succ g ih =>
    intro q k h hid
    cases q with
    | nil =>
      refine ⟨rfl, ?_⟩
      intro e he
      simp [processQueue] at he
    | cons p rest =>
      have hb := nodeBound_pos p.samples.length
      rw [queueMeasure_cons] at h
      rw [List.map_cons, List.length_cons, List.range'_succ] at hid
      injection hid with hpk hrest
      simp only [List.length_cons]
      have hidx : k + (rest.length + 1) = (k + 1) + rest.length := by omega
      by_cases hstop : stopRule maxD minSS p
      · rw [processQueue_cons_stop maxD minSS g p rest (k + (rest.length + 1)) hstop]
        rw [hidx]
        obtain ⟨ih1, ih2⟩ := ih rest (k + 1) (by omega) hrest
        refine ⟨?_, ?_⟩
        · rw [List.map_cons, ih1, List.length_cons, List.range'_succ]
          congr 1
        · intro e he
          rcases List.mem_cons.mp he with rfl | he
          · intro cid hcid
            simp [eventChildIds] at hcid
          · exact ih2 e he
      · cases hfb : findBestSplit p.samples with
        | none =>
          rw [processQueue_cons_nosplit maxD minSS g p rest (k + (rest.length + 1)) hstop hfb]
          rw [hidx]
          obtain ⟨ih1, ih2⟩ := ih rest (k + 1) (by omega) hrest
          refine ⟨?_, ?_⟩
          · rw [List.map_cons, ih1, List.length_cons, List.range'_succ]
            congr 1
          · intro e he
            rcases List.mem_cons.mp he with rfl | he
            · intro cid hcid
              simp [eventChildIds] at hcid
            · exact ih2 e he
        | some best =>
          by_cases hgain : best.infoGain ≤ 0
          · rw [processQueue_cons_gain maxD minSS g p rest (k + (rest.length + 1)) hstop hfb
              hgain]
            rw [hidx]
            obtain ⟨ih1, ih2⟩ := ih rest (k + 1) (by omega) hrest
            refine ⟨?_, ?_⟩
            · rw [List.map_cons, ih1, List.length_cons, List.range'_succ]
              congr 1
            · intro e he
              rcases List.mem_cons.mp he with rfl | he
              · intro cid hcid
                simp [eventChildIds] at hcid
              · exact ih2 e he
          · rw [processQueue_cons_split maxD minSS g p rest (k + (rest.length + 1)) hstop hfb
              hgain]
            have hdec := queueMeasure_split hfb rest (k + (rest.length + 1))
              (k + (rest.length + 1) + 1) (p.depth + 1) (p.depth + 1)
            have hids2 : (rest ++
                [Pending.mk (k + (rest.length + 1))
                    (leftOf p.samples best.featureIndex.toNat best.threshold) (p.depth + 1),
                  Pending.mk (k + (rest.length + 1) + 1)
                    (rightOf p.samples best.featureIndex.toNat best.threshold)
                    (p.depth + 1)]).map Pending.id =
                List.range' (k + 1) (rest ++
                  [Pending.mk (k + (rest.length + 1))
                      (leftOf p.samples best.featureIndex.toNat best.threshold) (p.depth + 1),
                    Pending.mk (k + (rest.length + 1) + 1)
                      (rightOf p.samples best.featureIndex.toNat best.threshold)
                      (p.depth + 1)]).length := by
              rw [List.map_append, hrest, List.length_append, List.length_cons,
                List.length_cons, List.length_nil]
              show List.range' (k + 1) rest.length ++
                [k + (rest.length + 1), k + (rest.length + 1) + 1] = _
              rw [range'_two (k + (rest.length + 1))]
              have he1 : k + (rest.length + 1) = (k + 1) + rest.length := by omega
              rw [he1, List.range'_append_1]
              congr 1
              omega
            have he2 : k + (rest.length + 1) + 2 = (k + 1) + (rest.length + 2) := by omega
            have he3 : (rest ++
                [Pending.mk (k + (rest.length + 1))
                    (leftOf p.samples best.featureIndex.toNat best.threshold) (p.depth + 1),
                  Pending.mk (k + (rest.length + 1) + 1)
                    (rightOf p.samples best.featureIndex.toNat best.threshold)
                    (p.depth + 1)]).length = rest.length + 2 := by
              simp
            rw [he2]
            obtain ⟨ih1, ih2⟩ := ih (rest ++
              [Pending.mk (k + (rest.length + 1))
                  (leftOf p.samples best.featureIndex.toNat best.threshold) (p.depth + 1),
                Pending.mk (k + (rest.length + 1) + 1)
                  (rightOf p.samples best.featureIndex.toNat best.threshold) (p.depth + 1)])
              (k + 1) (by omega) hids2
            rw [he3] at ih1 ih2
            refine ⟨?_, ?_⟩
            · rw [List.map_cons, ih1, List.length_cons, List.range'_succ]
              congr 1
            · intro e he
              rcases List.mem_cons.mp he with rfl | he
              · intro cid hcid
                simp only [eventChildIds, mkNodeData, List.mem_cons, List.not_mem_nil,
                  or_false] at hcid
                have hek : eventId (BuildEvent.split (mkNodeData p)
                    best.featureIndex.toNat best.threshold best.infoGain
                    (mkNodeData (Pending.mk (k + (rest.length + 1))
                      (leftOf p.samples best.featureIndex.toNat best.threshold) (p.depth + 1)))
                    (mkNodeData (Pending.mk (k + (rest.length + 1) + 1)
                      (rightOf p.samples best.featureIndex.toNat best.threshold)
                      (p.depth + 1)))) = k := hpk
                rw [hek]
                rcases hcid with rfl | rfl
                · omega
                · omega
              · exact ih2 e he

/-- The per-node events of one build carry the consecutive ids starting at
1, in yield order, and split events announce children with larger ids. -/
theorem buildIds_eq_range (samples : List Sample) (maxD minSS : ℤ) :
    buildIds samples maxD minSS = List.range' 1 (buildIds samples maxD minSS).length ∧
    ∀ e ∈ (processQueue maxD minSS (sufficientFuel samples) [rootPending samples] 2).1,
      ∀ cid ∈ eventChildIds e, eventId e < cid := by
  have h := processQueue_ids maxD minSS (sufficientFuel samples) [rootPending samples] 1
    (sufficientFuel_le samples) rfl
  have h2 : (1 : ℕ) + [rootPending samples].length = 2 := rfl
  rw [h2] at h
  unfold buildIds
  rw [List.length_map]
  exact ⟨h.1, h.2⟩

/-- C6 (amended): within a single build driven alone to completion, the
subject node ids of the per-node events are pairwise distinct. -/
theorem claimC6_solo_ids (samples : List Sample) (maxDepth minSamplesSplit : ℤ) :
    (buildIds samples maxDepth minSamplesSplit).Nodup := by
  rw [(buildIds_eq_range samples maxDepth minSamplesSplit).1]
  exact List.nodup_range' _ _

/-- Dropping to the last two positions of a list of length `n + 2`. -/
theorem drop_two_of_length {α : Type} (l : List α) (n : ℕ) (d1 d2 : α)
    (h : l.length = n + 2) :
    l.drop n = [l.getD n d1, l.getD (n + 1) d2] := by
  have h0 : n < l.length := by omega
  have h1 : n + 1 < l.length := by omega
  rw [List.drop_eq_getElem_cons h0, List.drop_eq_getElem_cons h1,
    List.drop_eq_nil_of_le (by omega), List.getD_eq_getElem _ _ h0,
    List.getD_eq_getElem _ _ h1]

/-- Splitting a sum over a list of length `n + 2` into the first `n`
positions and the last two. -/
theorem sum_take_two {α : Type} (f : α → ℕ) (l : List α) (n : ℕ) (d1 d2 : α)
    (h : l.length = n + 2) :
    (l.map f).sum = ((l.take n).map f).sum + f (l.getD n d1) + f (l.getD (n + 1) d2) := by
  conv_lhs => rw [← List.take_append_drop n l]
  rw [List.map_append, List.sum_append, drop_two_of_length l n d1 d2 h]
  simp [add_assoc]

/-- The loop yields exactly one event per dequeued node: the number of
events equals the total number of nodes of the finished subtrees. -/
theorem processQueue_events_length (maxD minSS : ℤ) :
    ∀ fuel q i, queueMeasure q ≤ fuel →
      (processQueue maxD minSS fuel q i).1.length =
        ((processQueue maxD minSS fuel q i).2.map treeSize).sum := by
  intro fuel
  induction fuel with
  | zero =>
    intro q i h
    rfl
  | succ g ih =>
    intro q i h
    cases q with
    | nil => rfl
    | cons p rest =>
      have hb := nodeBound_pos p.samples.length
      rw [queueMeasure_cons] at h
      by_cases hstop : stopRule maxD minSS p
      · rw [processQueue_cons_stop maxD minSS g p rest i hstop]
        simp only [List.length_cons, List.map_cons, List.sum_cons, treeSize]
        rw [ih rest i (by omega)]
        omega
      · cases hfb : findBestSplit p.samples with
        | none =>
          rw [processQueue_cons_nosplit maxD minSS g p rest i hstop hfb]
          simp only [List.length_cons, List.map_cons, List.sum_cons, treeSize]
          rw [ih rest i (by omega)]
          omega
        | some best =>
          by_cases hgain : best.infoGain ≤ 0
          · rw [processQueue_cons_gain maxD minSS g p rest i hstop hfb hgain]
            simp only [List.length_cons, List.map_cons, List.sum_cons, treeSize]
            rw [ih rest i (by omega)]
            omega
          · have hdec := queueMeasure_split hfb rest i (i + 1) (p.depth + 1) (p.depth + 1)
            have hfuel : queueMeasure (rest ++
                [⟨i, leftOf p.samples best.featureIndex.toNat best.threshold, p.depth + 1⟩,
                  ⟨i + 1, rightOf p.samples best.featureIndex.toNat best.threshold,
                    p.depth + 1⟩]) ≤ g := by omega
            have hmap := processQueue_map_pendingData maxD minSS g _ (i + 2) hfuel
            have hlen : (processQueue maxD minSS g
                (rest ++
                  [⟨i, leftOf p.samples best.featureIndex.toNat best.threshold, p.depth + 1⟩,
                    ⟨i + 1, rightOf p.samples best.featureIndex.toNat best.threshold,
                      p.depth + 1⟩])
                (i + 2)).2.length = rest.length + 2 := by
              have hcl := congrArg List.length hmap
              simpa using hcl
            rw [processQueue_cons_split maxD minSS g p rest i hstop hfb hgain]
            simp only [List.length_cons, List.map_cons, List.sum_cons, treeSize]
            rw [ih _ (i + 2) hfuel]
            rw [sum_take_two treeSize _ rest.length
              (.leaf (mkNodeData
                ⟨i, leftOf p.samples best.featureIndex.toNat best.threshold, p.depth + 1⟩))
              (.leaf (mkNodeData
                ⟨i + 1, rightOf p.samples best.featureIndex.toNat best.threshold,
                  p.depth + 1⟩))
              hlen]
            omega

/-- BFS depth discipline: if the queue depths are ascending and spread by
at most one level, the yielded events have non-decreasing depths, each at
least the depth of some queue entry. -/
theorem processQueue_depths (maxD minSS : ℤ) :
    ∀ fuel q i, queueMeasure q ≤ fuel →
      (q.map Pending.depth).Pairwise (· ≤ ·) →
      (∀ a ∈ q, ∀ b ∈ q, a.depth ≤ b.depth + 1) →
      ((processQueue maxD minSS fuel q i).1.map eventDepth).Pairwise (· ≤ ·) ∧
      ∀ e ∈ (processQueue maxD minSS fuel q i).1, ∃ y ∈ q, y.depth ≤ eventDepth e := by
  intro fuel
  induction fuel with
  | zero =>
    intro q i h hsort hspread
    refine ⟨List.Pairwise.nil, ?_⟩
    intro e he
    simp [processQueue] at he
  | succ g ih =>
    intro q i h hsort hspread
    cases q with
    | nil =>
      refine ⟨List.Pairwise.nil, ?_⟩
      intro e he
      simp [processQueue] at he
    | cons p rest =>
      have hb := nodeBound_pos p.samples.length
      rw [queueMeasure_cons] at h
      rw [List.map_cons] at hsort
      have hsort' := List.pairwise_cons.mp hsort
      have hple : ∀ x ∈ rest, p.depth ≤ x.depth := by
        intro x hx
        exact hsort'.1 x.depth (List.mem_map_of_mem Pending.depth hx)
      by_cases hstop : stopRule maxD minSS p
      · rw [processQueue_cons_stop maxD minSS g p rest i hstop]
        obtain ⟨ih1, ih2⟩ := ih rest i (by omega) hsort'.2
          (fun a ha b hb2 => hspread a (List.mem_cons_of_mem p ha) b (List.mem_cons_of_mem p hb2))
        refine ⟨?_, ?_⟩
        · rw [List.map_cons]
          refine List.pairwise_cons.mpr ⟨?_, ih1⟩
          intro d hd
          rcases List.mem_map.mp hd with ⟨e, he, rfl⟩
          rcases ih2 e he with ⟨y, hy, hyd⟩
          exact le_trans (hple y hy) hyd
        · intro e he
          rcases List.mem_cons.mp he with rfl | he
          · exact ⟨p, List.mem_cons_self _ _, le_refl _⟩
          · rcases ih2 e he with ⟨y, hy, hyd⟩
            exact ⟨y, List.mem_cons_of_mem p hy, hyd⟩
      · cases hfb : findBestSplit p.samples with
        | none =>
          rw [processQueue_cons_nosplit maxD minSS g p rest i hstop hfb]
          obtain ⟨ih1, ih2⟩ := ih rest i (by omega) hsort'.2
            (fun a ha b hb2 =>
              hspread a (List.mem_cons_of_mem p ha) b (List.mem_cons_of_mem p hb2))
          refine ⟨?_, ?_⟩
          · rw [List.map_cons]
            refine List.pairwise_cons.mpr ⟨?_, ih1⟩
            intro d hd
            rcases List.mem_map.mp hd with ⟨e, he, rfl⟩
            rcases ih2 e he with ⟨y, hy, hyd⟩
            exact le_trans (hple y hy) hyd
          · intro e he
            rcases List.mem_cons.mp he with rfl | he
            · exact ⟨p, List.mem_cons_self _ _, le_refl _⟩
            · rcases ih2 e he with ⟨y, hy, hyd⟩
              exact ⟨y, List.mem_cons_of_mem p hy, hyd⟩
        | some best =>
          by_cases hgain : best.infoGain ≤ 0
          · rw [processQueue_cons_gain maxD minSS g p rest i hstop hfb hgain]
            obtain ⟨ih1, ih2⟩ := ih rest i (by omega) hsort'.2
              (fun a ha b hb2 =>
                hspread a (List.mem_cons_of_mem p ha) b (List.mem_cons_of_mem p hb2))
            refine ⟨?_, ?_⟩
            · rw [List.map_cons]
              refine List.pairwise_cons.mpr ⟨?_, ih1⟩
              intro d hd
              rcases List.mem_map.mp hd with ⟨e, he, rfl⟩
              rcases ih2 e he with ⟨y, hy, hyd⟩
              exact le_trans (hple y hy) hyd
            · intro e he
              rcases List.mem_cons.mp he with rfl | he
              · exact ⟨p, List.mem_cons_self _ _, le_refl _⟩
              · rcases ih2 e he with ⟨y, hy, hyd⟩
                exact ⟨y, List.mem_cons_of_mem p hy, hyd⟩
          · have hdec := queueMeasure_split hfb rest i (i + 1) (p.depth + 1) (p.depth + 1)
            rw [processQueue_cons_split maxD minSS g p rest i hstop hfb hgain]
            have hq2 : ∀ x ∈ (rest ++
                [⟨i, leftOf p.samples best.featureIndex.toNat best.threshold, p.depth + 1⟩,
                  (⟨i + 1, rightOf p.samples best.featureIndex.toNat best.threshold,
                    p.depth + 1⟩ : Pending)]), p.depth ≤ x.depth := by
              intro x hx
              rcases List.mem_append.mp hx with hx | hx
              · exact hple x hx
              · rcases List.mem_cons.mp hx with rfl | hx
                · exact Nat.le_succ _
                · rcases List.mem_cons.mp hx with rfl | hx
                  · exact Nat.le_succ _
                  · simp at hx
            have hsort2 : (((rest ++
                [⟨i, leftOf p.samples best.featureIndex.toNat best.threshold, p.depth + 1⟩,
                  (⟨i + 1, rightOf p.samples best.featureIndex.toNat best.threshold,
                    p.depth + 1⟩ : Pending)]).map Pending.depth)).Pairwise (· ≤ ·) := by
              rw [List.map_append]
              refine List.pairwise_append.mpr ⟨hsort'.2, ?_, ?_⟩
              · refine List.pairwise_cons.mpr ⟨?_, ?_⟩
                · intro d hd
                  simp only [List.map_cons, List.map_nil, List.mem_singleton] at hd
                  subst hd
                  exact le_of_eq rfl
                · refine List.pairwise_cons.mpr ⟨?_, List.Pairwise.nil⟩
                  intro d hd
                  simp at hd
              · intro d1 hd1 d2 hd2
                rcases List.mem_map.mp hd1 with ⟨x, hx, rfl⟩
                simp only [List.map_cons, List.map_nil, List.mem_cons,
                  List.mem_singleton] at hd2
                have hxp := hspread x (List.mem_cons_of_mem p hx) p (List.mem_cons_self _ _)
                rcases hd2 with rfl | hd2
                · exact hxp
                · rcases hd2 with rfl | hd2
                  · exact hxp
                  · simp at hd2
            have hspread2 : ∀ a ∈ (rest ++
                [⟨i, leftOf p.samples best.featureIndex.toNat best.threshold, p.depth + 1⟩,
                  (⟨i + 1, rightOf p.samples best.featureIndex.toNat best.threshold,
                    p.depth + 1⟩ : Pending)]), ∀ b ∈ (rest ++
                [⟨i, leftOf p.samples best.featureIndex.toNat best.threshold, p.depth + 1⟩,
                  (⟨i + 1, rightOf p.samples best.featureIndex.toNat best.threshold,
                    p.depth + 1⟩ : Pending)]), a.depth ≤ b.depth + 1 := by
              intro a ha b hb2
              have hap : a.depth ≤ p.depth + 1 := by
                rcases List.mem_append.mp ha with ha | ha
                · exact hspread a (List.mem_cons_of_mem p ha) p (List.mem_cons_self _ _)
                · rcases List.mem_cons.mp ha with rfl | ha
                  · exact le_refl _
                  · rcases List.mem_cons.mp ha with rfl | ha
                    · exact le_refl _
                    · simp at ha
              have hbp := hq2 b hb2
              omega
            obtain ⟨ih1, ih2⟩ := ih _ (i + 2) (by omega) hsort2 hspread2
            refine ⟨?_, ?_⟩
            · rw [List.map_cons]
              refine List.pairwise_cons.mpr ⟨?_, ih1⟩
              intro d hd
              rcases List.mem_map.mp hd with ⟨e, he, rfl⟩
              rcases ih2 e he with ⟨y, hy, hyd⟩
              exact le_trans (hq2 y hy) hyd
            · intro e he
              rcases List.mem_cons.mp he with rfl | he
              · exact ⟨p, List.mem_cons_self _ _, le_refl _⟩
              · rcases ih2 e he with ⟨y, hy, hyd⟩
                exact ⟨p, List.mem_cons_self _ _, le_trans (hq2 y hy) hyd⟩

/-- C9: one event per dequeued node — the drained sequence is the per-node
events followed by the single `done`; the number of per-node events equals
the number of nodes of the completed tree; event subject depths are
non-decreasing (so every depth-d event precedes every depth-(d+1) event,
in particular a parent's split event precedes both children's events);
subject ids are 1..N in creation order; and each split event's children
carry strictly larger ids than the split node itself. -/
theorem claimC9_event_protocol (samples : List Sample) (maxDepth minSamplesSplit : ℤ) :
    ∃ evs root, buildTreeStepwise samples maxDepth minSamplesSplit = evs ++ [.done root] ∧
      (∀ e ∈ evs, e.isDone = false) ∧
      evs.length = treeSize root ∧
      (evs.map eventDepth).Pairwise (· ≤ ·) ∧
      evs.map eventId = List.range' 1 (treeSize root) ∧
      (∀ e ∈ evs, ∀ cid ∈ eventChildIds e, eventId e < cid) := by
  have hmap := processQueue_map_pendingData maxDepth minSamplesSplit (sufficientFuel samples)
    [rootPending samples] 2 (sufficientFuel_le samples)
  have hlen1 : (processQueue maxDepth minSamplesSplit (sufficientFuel samples)
      [rootPending samples] 2).2.length = 1 := by
    simpa using congrArg List.length hmap
  have hevlen := processQueue_events_length maxDepth minSamplesSplit (sufficientFuel samples)
    [rootPending samples] 2 (sufficientFuel_le samples)
  have hsum : ((processQueue maxDepth minSamplesSplit (sufficientFuel samples)
      [rootPending samples] 2).2.map treeSize).sum =
      treeSize (doneRoot samples maxDepth minSamplesSplit) := by
    unfold doneRoot
    rcases hq : (processQueue maxDepth minSamplesSplit (sufficientFuel samples)
      [rootPending samples] 2).2 with _ | ⟨t, tl⟩
    · rw [hq] at hlen1
      cases hlen1
    · rw [hq] at hlen1
      simp only [List.length_cons] at hlen1
      have htl : tl = [] := List.length_eq_zero.mp (by omega)
      subst htl
      simp
  have hevsize : (processQueue maxDepth minSamplesSplit (sufficientFuel samples)
      [rootPending samples] 2).1.length = treeSize (doneRoot samples maxDepth minSamplesSplit) := by
    rw [hevlen, hsum]
  refine ⟨(processQueue maxDepth minSamplesSplit (sufficientFuel samples)
      [rootPending samples] 2).1,
    doneRoot samples maxDepth minSamplesSplit, rfl, ?_, hevsize, ?_, ?_, ?_⟩
  · intro e he
    exact processQueue_no_done maxDepth minSamplesSplit _ _ _ e he
  · exact (processQueue_depths maxDepth minSamplesSplit (sufficientFuel samples)
      [rootPending samples] 2 (sufficientFuel_le samples)
      (by simp) (by intro a ha b hb2; simp at ha hb2; subst ha; subst hb2; omega)).1
  · have hr := (buildIds_eq_range samples maxDepth minSamplesSplit).1
    unfold buildIds at hr
    rw [List.length_map, hevsize] at hr
    exact hr
  · exact (buildIds_eq_range samples maxDepth minSamplesSplit).2
